import Mathlib

/-!
# conc-bst: a verification development for `avl.go`

The Go program keeps its nodes on the garbage-collected heap and links them
with pointers (`parent`, `left`, `right`, `leftSnapshot`, `rightSnapshot`).
The embedding keeps an explicit heap, a list of node records, and a pointer is
an optional index into that list (`none` is Go's `nil`).  Every function of
`avl.go` becomes a function on that heap.  The two `goto` retry loops and the
`for` loop of `searchForKey` take a fuel argument: one unit per iteration.
A nil dereference, a blocked `Lock` and an exhausted fuel are reported as a
`Fault`, so "the call returns" is the statement that the result is `.ok`.
-/

namespace ConcBst

/-- Go interface `Comparable[T]`: a key type with a three-way `Compare` method. -/
class Comparable (K : Type) where
  /-- Method `a.Compare(b)`. -/
  Compare : K → K → Int

export Comparable (Compare)

/-- The ordering contract of the key type: `a.Compare(b)` is negative, zero or
positive as `a` is less than, equal to or greater than `b`, for a strict total
order on the keys. -/
structure OrderingContract (K : Type) [Comparable K] : Prop where
  refl : ∀ a : K, Compare a a = 0
  antisymm : ∀ a b : K, Compare a b < 0 ↔ 0 < Compare b a
  trans : ∀ a b c : K, Compare a b < 0 → Compare b c < 0 → Compare a c < 0

/-- A Go pointer `*avlNode[K, V]`: `none` is `nil`, `some a` is the address `a`. -/
abbrev Ptr := Option Nat

/-- Go struct `avlNode[K, V]`.  The field `mtx` records whether the node's
`sync.Mutex` is held. -/
structure avlNode (K V : Type) where
  key : K
  value : V
  height : Nat
  marked : Bool
  parent : Ptr
  left : Ptr
  right : Ptr
  leftSnapshot : Ptr
  rightSnapshot : Ptr
  mtx : Bool
  deriving DecidableEq

/-- Go struct `ConcAvlTree[K, V]`. -/
structure ConcAvlTree where
  leftSentinel : Ptr
  rightSentinel : Ptr
  root : Ptr
  deriving DecidableEq

/-- The heap: the node stored at each allocated address. -/
abbrev Heap (K V : Type) := List (avlNode K V)

/-- A tree value together with the heap its pointers point into. -/
structure TreeState (K V : Type) where
  heap : Heap K V
  t : ConcAvlTree
  deriving DecidableEq

/-- The ways a call can fail to return a value. -/
inductive Fault where
  /-- A field of a nil pointer was read or written (Go panics). -/
  | nilDeref
  /-- The address is not allocated (cannot happen in Go). -/
  | dangling
  /-- `Lock` was called on a mutex that is already held. -/
  | blocked
  /-- The loop ran for more iterations than the fuel allows. -/
  | outOfFuel
  deriving DecidableEq

/-- Read through a pointer. -/
def load {K V : Type} (h : Heap K V) (p : Ptr) : Except Fault (avlNode K V) :=
  match p with
  | none => .error .nilDeref
  | some a =>
    match h[a]? with
    | none => .error .dangling
    | some n => .ok n

/-- Write through a pointer. -/
def store {K V : Type} (h : Heap K V) (p : Ptr) (n : avlNode K V) : Except Fault (Heap K V) :=
  match p with
  | none => .error .nilDeref
  | some a => if a < h.length then .ok (h.set a n) else .error .dangling

/-- Allocate a node (Go `&avlNode{...}`): the new address is the next free one. -/
def alloc {K V : Type} (h : Heap K V) (n : avlNode K V) : Ptr × Heap K V :=
  (some h.length, h ++ [n])

/-- Go `n.mtx.Lock()`. -/
def lock {K V : Type} (h : Heap K V) (p : Ptr) : Except Fault (Heap K V) :=
  match load h p with
  | .error e => .error e
  | .ok n => if n.mtx then .error .blocked else store h p { n with mtx := true }

/-- Go `n.mtx.Unlock()`. -/
def unlock {K V : Type} (h : Heap K V) (p : Ptr) : Except Fault (Heap K V) :=
  match load h p with
  | .error e => .error e
  | .ok n => store h p { n with mtx := false }

/-- Go `NewConcAvlTree(min, max, compareFn)` (avl.go lines 42-56).  The two
sentinels are allocated at addresses 0 and 1; every field not named in the
composite literal has its zero value. -/
def NewConcAvlTree {K V : Type} [Inhabited V] (min max : K) (_compareFn : K → K → Int) :
    TreeState K V :=
  let leftSentinel : avlNode K V :=
    { key := min, value := default, height := 0, marked := false, parent := none,
      left := none, right := none, leftSnapshot := none, rightSnapshot := none, mtx := false }
  let rightSentinel : avlNode K V :=
    { key := max, value := default, height := 0, marked := false, parent := none,
      left := none, right := none, leftSnapshot := none, rightSnapshot := none, mtx := false }
  let pl : Ptr := some 0
  let pr : Ptr := some 1
  -- leftSentinel.right = rightSentinel
  let leftSentinel := { leftSentinel with right := pr }
  -- rightSentinel.parent = leftSentinel
  let rightSentinel := { rightSentinel with parent := pl }
  -- leftSentinel.leftSnapshot = rightSentinel
  let leftSentinel := { leftSentinel with leftSnapshot := pr }
  -- rightSentinel.rightSnapshot = leftSentinel
  let rightSentinel := { rightSentinel with rightSnapshot := pl }
  { heap := [leftSentinel, rightSentinel],
    t := { leftSentinel := pl, rightSentinel := pr, root := pl } }

/-- Go `newNode(key, value, parent)` (avl.go lines 58-60). -/
def newNode {K V : Type} (h : Heap K V) (key : K) (value : V) (parent : Ptr) : Ptr × Heap K V :=
  alloc h { key := key, value := value, height := 0, marked := false, parent := parent,
            left := none, right := none, leftSnapshot := none, rightSnapshot := none,
            mtx := false }

/-- Go `invalidSnapshot(lastNode, key, compRes)` (avl.go lines 67-71), with the
short-circuit evaluation of `&&` and `||`: a snapshot pointer is read only
when the comparison in front of it holds. -/
def invalidSnapshot {K V : Type} [Comparable K] (h : Heap K V) (lastNode : Ptr) (key : K)
    (compRes : Int) : Except Fault Bool :=
  if compRes < 0 then
    match load h lastNode with
    | .error e => .error e
    | .ok n =>
      match load h n.leftSnapshot with
      | .error e => .error e
      | .ok s => .ok (decide (Compare s.key key ≤ 0))
  else if compRes > 0 then
    match load h lastNode with
    | .error e => .error e
    | .ok n =>
      match load h n.rightSnapshot with
      | .error e => .error e
      | .ok s => .ok (decide (Compare s.key key ≥ 0))
  else .ok false

/-- The `for compRes != 0` loop of `searchForKey` (avl.go lines 100-113),
entered with the current node and the current `compRes`. -/
def searchLoop {K V : Type} [Comparable K] (h : Heap K V) (key : K) :
    Nat → Ptr → Int → Except Fault (Ptr × Int)
  | fuel, curNode, compRes =>
    if compRes = 0 then .ok (curNode, compRes)
    else
      match fuel with
      | 0 => .error .outOfFuel
      | fuel + 1 =>
        match load h curNode with
        | .error e => .error e
        | .ok n =>
          let child := if compRes < 0 then n.left else n.right
          match child with
          | none => .ok (curNode, compRes)
          | some c =>
            match load h (some c) with
            | .error e => .error e
            | .ok cn => searchLoop h key fuel (some c) (Compare cn.key key)

/-- Go `t.searchForKey(key)` (avl.go lines 95-115): the loop is entered at the
root with `compRes = -2`. -/
def searchForKey {K V : Type} [Comparable K] (st : TreeState K V) (key : K) (fuel : Nat) :
    Except Fault (Ptr × Int) :=
  searchLoop st.heap key fuel st.t.root (-2)

/-- Go `t.Get(key)` (avl.go lines 73-90).  Each pass through the label
`GET_TAILCALLSTART` uses one unit of fuel. -/
def Get {K V : Type} [Comparable K] [Inhabited V] (st : TreeState K V) (key : K) :
    Nat → Except Fault (V × Bool)
  | 0 => .error .outOfFuel
  | fuel + 1 =>
    match searchForKey st key (fuel + 1) with
    | .error e => .error e
    | .ok (lastNode, compRes) =>
      if compRes = 0 then
        match load st.heap lastNode with
        | .error e => .error e
        | .ok n => .ok (n.value, true)
      else
        match load st.heap lastNode with
        | .error e => .error e
        | .ok n =>
          if n.marked then Get st key fuel
          else
            match invalidSnapshot st.heap lastNode key compRes with
            | .error e => .error e
            | .ok true => Get st key fuel
            | .ok false => .ok (default, false)

/-- Go `t.Contains(key)` (avl.go lines 62-65). -/
def Contains {K V : Type} [Comparable K] [Inhabited V] (st : TreeState K V) (key : K)
    (fuel : Nat) : Except Fault Bool :=
  match Get st key fuel with
  | .error e => .error e
  | .ok (_, found) => .ok found

/-- Go `n.addChild(key, value, compRes)` (avl.go lines 136-153).  The node
built by `newNode` is bound to the local `newChild` and written nowhere. -/
def addChild {K V : Type} [Comparable K] (h : Heap K V) (n : Ptr) (key : K) (value : V)
    (compRes : Int) : Except Fault (Bool × Heap K V) :=
  match lock h n with
  | .error e => .error e
  | .ok h1 =>
    match load h1 n with
    | .error e => .error e
    | .ok node =>
      let retryNow : Except Fault Bool :=
        if node.marked then .ok true
        else if node.left ≠ none ∧ compRes < 0 then .ok true
        else if node.right ≠ none ∧ compRes > 0 then .ok true
        else invalidSnapshot h1 n key compRes
      match retryNow with
      | .error e => .error e
      | .ok true =>
        match unlock h1 n with
        | .error e => .error e
        | .ok h2 => .ok (true, h2)
      | .ok false =>
        let (_newChild, h2) := newNode h1 key value n
        match unlock h2 n with
        | .error e => .error e
        | .ok h3 => .ok (false, h3)

/-- Go `t.Insert(key, value)` (avl.go lines 119-134).  Each pass through the
label `INSERT_TAILCALLSTART` uses one unit of fuel. -/
def Insert {K V : Type} [Comparable K] (st : TreeState K V) (key : K) (value : V) :
    Nat → Except Fault (Bool × TreeState K V)
  | 0 => .error .outOfFuel
  | fuel + 1 =>
    match searchForKey st key (fuel + 1) with
    | .error e => .error e
    | .ok (node, compRes) =>
      if compRes = 0 then
        match load st.heap node with
        | .error e => .error e
        | .ok n =>
          match store st.heap node { n with value := value } with
          | .error e => .error e
          | .ok h1 => .ok (true, { st with heap := h1 })
      else
        match addChild st.heap node key value compRes with
        | .error e => .error e
        | .ok (retry, h1) =>
          if retry then Insert { st with heap := h1 } key value fuel
          else .ok (false, { st with heap := h1 })

/-- Integer keys with the usual three-way comparison (the `intCompare` of the
concrete scenario). -/
instance intComparable : Comparable Int where
  Compare a b := if a < b then -1 else if a = b then 0 else 1


/-- The states a single thread can reach: the tree `NewConcAvlTree` builds,
followed by calls of `Insert` that returned.  The list records the keys of
those calls, the latest first. -/
inductive Built {K V : Type} [Comparable K] [Inhabited V] (min max : K) :
    List K → TreeState K V → Prop
  | new (compareFn : K → K → Int) : Built min max [] (NewConcAvlTree min max compareFn)
  | insert {keys : List K} {st : TreeState K V} (key : K) (value : V) (fuel : Nat)
      (existed : Bool) (st' : TreeState K V) :
      Built min max keys st → Insert st key value fuel = .ok (existed, st') →
      Built min max (key :: keys) st'

/-- The min-sentinel record as `NewConcAvlTree` leaves it. -/
def minSentinel {K V : Type} [Inhabited V] (min : K) : avlNode K V :=
  { key := min, value := default, height := 0, marked := false, parent := none,
    left := none, right := some 1, leftSnapshot := some 1, rightSnapshot := none, mtx := false }

/-- The max-sentinel record as `NewConcAvlTree` leaves it. -/
def maxSentinel {K V : Type} [Inhabited V] (max : K) : avlNode K V :=
  { key := max, value := default, height := 0, marked := false, parent := some 0,
    left := none, right := none, leftSnapshot := none, rightSnapshot := some 0, mtx := false }

/-- The shape every reachable state has: the two sentinels sit at addresses 0
and 1 exactly as constructed, and the rest of the heap is nodes that
`addChild` allocated. -/
def SentinelShape {K V : Type} [Inhabited V] (min max : K) (st : TreeState K V) : Prop :=
  ∃ rest : Heap K V,
    st = { heap := minSentinel min :: maxSentinel max :: rest,
           t := { leftSentinel := some 0, rightSentinel := some 1, root := some 0 } }

/-- In-order walk (left subtree, node, right subtree) over the child links,
starting at `p`; the result lists the addresses in the order visited. -/
def inorder {K V : Type} (h : Heap K V) : Nat → Ptr → Except Fault (List Nat)
  | _, none => .ok []
  | 0, some _ => .error .outOfFuel
  | fuel + 1, some a =>
    match load h (some a) with
    | .error e => .error e
    | .ok n =>
      match inorder h fuel n.left with
      | .error e => .error e
      | .ok l =>
        match inorder h fuel n.right with
        | .error e => .error e
        | .ok r => .ok (l ++ a :: r)

/-- The keys of the unmarked nodes among the given addresses, in the same order. -/
def unmarkedKeys {K V : Type} (h : Heap K V) (addrs : List Nat) : List K :=
  addrs.filterMap fun a =>
    match h[a]? with
    | some n => if n.marked then none else some n.key
    | none => none

/-- Strictly increasing under `Compare`. -/
def StrictlyIncreasing {K : Type} [Comparable K] (ks : List K) : Prop :=
  ks.Pairwise fun a b => Compare a b < 0

/-- One pointer hop: `q` is stored in a pointer field of the node at `p`. -/
def PointsTo {K V : Type} (h : Heap K V) (p q : Nat) : Prop :=
  ∃ n, h[p]? = some n ∧
    (n.left = some q ∨ n.right = some q ∨ n.parent = some q ∨
      n.leftSnapshot = some q ∨ n.rightSnapshot = some q)

/-- The node at `q` can be reached from the pointer `p` by following pointer
fields (child, parent and snapshot links alike). -/
def Reachable {K V : Type} (h : Heap K V) (p : Ptr) (q : Nat) : Prop :=
  ∃ a, p = some a ∧ Relation.ReflTransGen (PointsTo h) a q

/-- The tree of the concrete scenario: integer keys, string values, sentinels
`-100` and `100`. -/
def scenario0 : TreeState Int String := NewConcAvlTree (-100) 100 Compare

/-- The state a returning `Insert` leaves (the state itself when it faults). -/
def afterInsert {K V : Type} [Comparable K] (st : TreeState K V) (key : K) (value : V) :
    TreeState K V :=
  match Insert st key value 1 with
  | .ok (_, st') => st'
  | .error _ => st

/-- The scenario after `Insert(5, "a")`. -/
def scenario1 : TreeState Int String := afterInsert scenario0 5 "a"

/-- The scenario after `Insert(5, "a")` and `Insert(3, "b")`. -/
def scenario2 : TreeState Int String := afterInsert scenario1 3 "b"

/-- The scenario after `Insert(5, "a")`, `Insert(3, "b")` and `Insert(5, "c")`. -/
def scenario3 : TreeState Int String := afterInsert scenario2 5 "c"

/-- A finite binary tree of node addresses. -/
inductive Shape where
  | nil : Shape
  | node (l : Shape) (a : Nat) (r : Shape) : Shape
  deriving DecidableEq

/-- Number of levels of a shape. -/
def Shape.height : Shape → Nat
  | .nil => 0
  | .node l _ r => max l.height r.height + 1

/-- The addresses of a shape, in order (left subtree, node, right subtree). -/
def Shape.addrs : Shape → List Nat
  | .nil => []
  | .node l a r => l.addrs ++ a :: r.addrs

/-- The child links below the pointer `p` form the finite tree `s`: the
nil pointer is the empty tree, and an address carries a node whose `left` and
`right` pointers are the roots of the two subtrees. -/
def IsTree {K V : Type} (h : Heap K V) : Ptr → Shape → Prop
  | none, .nil => True
  | some a, .node l b r =>
    a = b ∧
      match h[a]? with
      | some n => IsTree h n.left l ∧ IsTree h n.right r
      | none => False
  | _, _ => False

/-- The key stored at an address. -/
def keyAt {K V : Type} (h : Heap K V) (a : Nat) : Option K :=
  (h[a]?).map fun n => n.key

/-- The BST order invariant in the words of the specification: at every node,
all keys in its left subtree compare less than the node's key and all keys in
its right subtree compare greater. -/
def BstOrder {K V : Type} [Comparable K] (h : Heap K V) : Shape → Prop
  | .nil => True
  | .node l a r =>
    (∀ b ∈ l.addrs, ∀ ka kb, keyAt h a = some ka → keyAt h b = some kb → Compare kb ka < 0) ∧
    (∀ b ∈ r.addrs, ∀ ka kb, keyAt h a = some ka → keyAt h b = some kb → Compare kb ka > 0) ∧
    BstOrder h l ∧ BstOrder h r

/-- The mirrored order: at every node, all keys in its left subtree compare
greater than the node's key and all keys in its right subtree compare less. -/
def MirrorOrder {K V : Type} [Comparable K] (h : Heap K V) : Shape → Prop
  | .nil => True
  | .node l a r =>
    (∀ b ∈ l.addrs, ∀ ka kb, keyAt h a = some ka → keyAt h b = some kb → Compare kb ka > 0) ∧
    (∀ b ∈ r.addrs, ∀ ka kb, keyAt h a = some ka → keyAt h b = some kb → Compare kb ka < 0) ∧
    MirrorOrder h l ∧ MirrorOrder h r

/-- A node record with the given key, value and children, every other field zero. -/
def plainNode (key : Int) (value : String) (left right : Ptr) : avlNode Int String :=
  { key := key, value := value, height := 0, marked := false, parent := none,
    left := left, right := right, leftSnapshot := none, rightSnapshot := none, mtx := false }

/-- A hand-built tree in the usual BST order: root 9 at address 0, its left
child 5 at address 1, whose left child is 3 at address 2. -/
def chainAscending : TreeState Int String :=
  { heap := [plainNode 9 "r" (some 1) none, plainNode 5 "a" (some 2) none,
             plainNode 3 "b" none none],
    t := { leftSentinel := some 0, rightSentinel := none, root := some 0 } }

/-- The shape of `chainAscending`. -/
def chainShape : Shape := .node (.node (.node .nil 2 .nil) 1 .nil) 0 .nil

/-- A hand-built tree in the mirrored order below its root: root 0 at
address 0, its left child 5 at address 1, whose left child is 8 at address 2
and whose right child is 3 at address 3. -/
def mirrored : TreeState Int String :=
  { heap := [plainNode 0 "r" (some 1) none, plainNode 5 "a" (some 2) (some 3),
             plainNode 8 "b" none none, plainNode 3 "c" none none],
    t := { leftSentinel := some 0, rightSentinel := none, root := some 0 } }

/-- The shape of the left subtree of the root of `mirrored`. -/
def mirroredLeft : Shape := .node (.node .nil 2 .nil) 1 (.node .nil 3 .nil)

/-- One step down: `q` is the left or the right child of the node at `p`. -/
def ChildLink {K V : Type} (h : Heap K V) (p q : Nat) : Prop :=
  ∃ n, h[p]? = some n ∧ (n.left = some q ∨ n.right = some q)

/-- The node at `q` can be reached from the pointer `p` through child links only. -/
def ReachableDown {K V : Type} (h : Heap K V) (p : Ptr) (q : Nat) : Prop :=
  ∃ a, p = some a ∧ Relation.ReflTransGen (ChildLink h) a q

/-- A hand-built tree with snapshot links: root 0 at address 0, its left child
5 at address 1 with `leftSnapshot` the node 9 at address 2 and `rightSnapshot`
the root. -/
def snapshotted : TreeState Int String :=
  { heap := [plainNode 0 "r" (some 1) none,
             { plainNode 5 "a" none none with
               parent := some 0, leftSnapshot := some 2, rightSnapshot := some 0 },
             plainNode 9 "s" none none],
    t := { leftSentinel := some 0, rightSentinel := some 2, root := some 0 } }

/-- A memory event: what a call does to the node at an address. -/
inductive Access where
  /-- A field of the node is read. -/
  | read (a : Nat)
  /-- A field of the node is written. -/
  | write (a : Nat)
  /-- The node's mutex is acquired. -/
  | lock (a : Nat)
  /-- The node's mutex is released. -/
  | unlock (a : Nat)
  deriving DecidableEq

/-- A tree state together with the memory events recorded so far. -/
structure Traced (K V : Type) where
  st : TreeState K V
  log : List Access

/-- Read a field through a node pointer and record the read. -/
def readNode {K V : Type} (w : Traced K V) (p : Ptr) :
    Except Fault (avlNode K V × Traced K V) :=
  match p with
  | none => .error .nilDeref
  | some a =>
    match w.st.heap[a]? with
    | none => .error .dangling
    | some n => .ok (n, { w with log := w.log ++ [Access.read a] })

/-- The loop of `searchForKey` (avl.go lines 100-113) with its memory events
recorded: it reads `curNode.left` or `curNode.right` and the child's key. -/
def searchLoopT {K V : Type} [Comparable K] (key : K) :
    Nat → Traced K V → Ptr → Int → Except Fault ((Ptr × Int) × Traced K V)
  | fuel, w, curNode, compRes =>
    if compRes = 0 then .ok ((curNode, compRes), w)
    else
      match fuel with
      | 0 => .error .outOfFuel
      | fuel + 1 =>
        match readNode w curNode with
        | .error e => .error e
        | .ok (n, w1) =>
          let child := if compRes < 0 then n.left else n.right
          match child with
          | none => .ok ((curNode, compRes), w1)
          | some c =>
            match readNode w1 (some c) with
            | .error e => .error e
            | .ok (cn, w2) => searchLoopT key fuel w2 (some c) (Compare cn.key key)

/-- Go `t.searchForKey(key)` (avl.go lines 95-115) with its memory events recorded. -/
def searchForKeyT {K V : Type} [Comparable K] (w : Traced K V) (key : K) (fuel : Nat) :
    Except Fault ((Ptr × Int) × Traced K V) :=
  searchLoopT key fuel w w.st.t.root (-2)

/-- Go `invalidSnapshot` (avl.go lines 67-71) with its memory events recorded. -/
def invalidSnapshotT {K V : Type} [Comparable K] (w : Traced K V) (lastNode : Ptr) (key : K)
    (compRes : Int) : Except Fault (Bool × Traced K V) :=
  if compRes < 0 then
    match readNode w lastNode with
    | .error e => .error e
    | .ok (n, w1) =>
      match readNode w1 n.leftSnapshot with
      | .error e => .error e
      | .ok (s, w2) => .ok (decide (Compare s.key key ≤ 0), w2)
  else if compRes > 0 then
    match readNode w lastNode with
    | .error e => .error e
    | .ok (n, w1) =>
      match readNode w1 n.rightSnapshot with
      | .error e => .error e
      | .ok (s, w2) => .ok (decide (Compare s.key key ≥ 0), w2)
  else .ok (false, w)

/-- Go `t.Get(key)` (avl.go lines 73-90) with its memory events recorded: the
body consists of field reads only. -/
def GetT {K V : Type} [Comparable K] [Inhabited V] (key : K) :
    Nat → Traced K V → Except Fault ((V × Bool) × Traced K V)
  | 0, _ => .error .outOfFuel
  | fuel + 1, w =>
    match searchForKeyT w key (fuel + 1) with
    | .error e => .error e
    | .ok ((lastNode, compRes), w1) =>
      if compRes = 0 then
        match readNode w1 lastNode with
        | .error e => .error e
        | .ok (n, w2) => .ok ((n.value, true), w2)
      else
        match readNode w1 lastNode with
        | .error e => .error e
        | .ok (n, w2) =>
          if n.marked then GetT key fuel w2
          else
            match invalidSnapshotT w2 lastNode key compRes with
            | .error e => .error e
            | .ok (true, w3) => GetT key fuel w3
            | .ok (false, w3) => .ok ((default, false), w3)

/-- Go `t.Contains(key)` (avl.go lines 62-65) with its memory events recorded. -/
def ContainsT {K V : Type} [Comparable K] [Inhabited V] (key : K) (fuel : Nat)
    (w : Traced K V) : Except Fault (Bool × Traced K V) :=
  match GetT key fuel w with
  | .error e => .error e
  | .ok ((_, found), w1) => .ok (found, w1)

/-- Between `w` and `w'` the tree state is the same and only reads were recorded. -/
def OnlyReads {K V : Type} (w w' : Traced K V) : Prop :=
  w'.st = w.st ∧ ∃ extra, w'.log = w.log ++ extra ∧ ∀ e ∈ extra, ∃ a, e = Access.read a

/-- The states reachable from `NewConcAvlTree(min, max, _)` by calls of
`Insert`, `Get` and `Contains` that returned; a step takes the state the call
left behind. -/
inductive Run {K V : Type} [Comparable K] [Inhabited V] (min max : K) :
    TreeState K V → Prop
  | new (compareFn : K → K → Int) : Run min max (NewConcAvlTree min max compareFn)
  | insert {st : TreeState K V} (key : K) (value : V) (fuel : Nat)
      (existed : Bool) (st' : TreeState K V) :
      Run min max st → Insert st key value fuel = .ok (existed, st') → Run min max st'
  | get {st : TreeState K V} (key : K) (fuel : Nat) (r : V × Bool) (w' : Traced K V) :
      Run min max st → GetT key fuel { st := st, log := [] } = .ok (r, w') →
      Run min max w'.st
  | contains {st : TreeState K V} (key : K) (fuel : Nat) (b : Bool) (w' : Traced K V) :
      Run min max st → ContainsT key fuel { st := st, log := [] } = .ok (b, w') →
      Run min max w'.st

/-- The traced computation `traced`, started in `w`, does what the untraced
computation `plain` does: it faults the same way, or it returns the same value
in a state `w'` with the tree unchanged and only reads recorded. -/
def Mirrors {K V α : Type} (w : Traced K V) (plain : Except Fault α)
    (traced : Except Fault (α × Traced K V)) : Prop :=
  match plain with
  | .error e => traced = .error e
  | .ok r => ∃ w', traced = .ok (r, w') ∧ OnlyReads w w'

/-- The pointer is nil or an allocated address. -/
def inHeap {K V : Type} (h : Heap K V) (p : Ptr) : Bool :=
  match p with
  | none => true
  | some a => decide (a < h.length)

/-- No pointer of the state dangles: the root and every pointer field of every
node is nil or an allocated address (what Go's memory safety guarantees). -/
def NoDangling {K V : Type} (st : TreeState K V) : Bool :=
  inHeap st.heap st.t.root &&
    st.heap.all fun n =>
      inHeap st.heap n.parent && inHeap st.heap n.left && inHeap st.heap n.right &&
        inHeap st.heap n.leftSnapshot && inHeap st.heap n.rightSnapshot

/-- A call made by a client of the tree. -/
inductive Op (K V : Type) where
  | get (key : K)
  | contains (key : K)
  | insert (key : K) (value : V)

/-- What a call returned. -/
inductive Outcome (V : Type) where
  | got (value : V) (found : Bool)
  | has (found : Bool)
  | inserted (existed : Bool)
  deriving DecidableEq

/-- Run a sequence of calls one after the other on a tree, each with the given
fuel, and collect what they return. -/
def runOps {K V : Type} [Comparable K] [Inhabited V] (fuel : Nat) :
    TreeState K V → List (Op K V) → Except Fault (List (Outcome V))
  | _, [] => .ok []
  | st, .get key :: ops =>
    match Get st key fuel with
    | .error e => .error e
    | .ok (v, found) =>
      match runOps fuel st ops with
      | .error e => .error e
      | .ok outs => .ok (.got v found :: outs)
  | st, .contains key :: ops =>
    match Contains st key fuel with
    | .error e => .error e
    | .ok found =>
      match runOps fuel st ops with
      | .error e => .error e
      | .ok outs => .ok (.has found :: outs)
  | st, .insert key value :: ops =>
    match Insert st key value fuel with
    | .error e => .error e
    | .ok (existed, st') =>
      match runOps fuel st' ops with
      | .error e => .error e
      | .ok outs => .ok (.inserted existed :: outs)

/-! ## The behaviour of the operations on a reachable state -/

theorem intContract : OrderingContract Int := by
  refine ⟨?_, ?_, ?_⟩
  · intro a
    simp [Compare]
  · intro a b
    simp only [Compare]
    split_ifs <;> omega
  · intro a b c
    simp only [Compare]
    split_ifs <;> omega

theorem new_shape {K V : Type} [Inhabited V] (min max : K) (f : K → K → Int) :
    SentinelShape min max (NewConcAvlTree min max f : TreeState K V) :=
  ⟨[], rfl⟩

theorem search_shape {K V : Type} [Comparable K] [Inhabited V] {min max : K}
    {st : TreeState K V} (hs : SentinelShape min max st)
    (key : K) (fuel : Nat) : searchForKey st key (fuel + 1) = .ok (some 0, -2) := by
  obtain ⟨rest, rfl⟩ := hs
  simp [searchForKey, searchLoop, load, minSentinel]

theorem get_shape {K V : Type} [Comparable K] [Inhabited V] {min max : K}
    {st : TreeState K V} (hs : SentinelShape min max st) (key : K) (fuel : Nat) :
    Get st key (fuel + 1) =
      if Compare max key ≤ 0 then Get st key fuel else .ok (default, false) := by
  have hsearch := search_shape hs key fuel
  obtain ⟨rest, rfl⟩ := hs
  rw [Get, hsearch]
  by_cases hk : Compare max key ≤ 0
  · simp [load, minSentinel, maxSentinel, invalidSnapshot, hk]
  · simp [load, minSentinel, maxSentinel, invalidSnapshot, hk]

theorem insert_shape {K V : Type} [Comparable K] [Inhabited V] {min max : K}
    {st : TreeState K V} (hs : SentinelShape min max st) (key : K) (value : V) (fuel : Nat) :
    Insert st key value (fuel + 1) =
      if Compare max key ≤ 0 then Insert st key value fuel
      else .ok (false, { st with heap := (newNode st.heap key value (some 0)).2 }) := by
  have hsearch := search_shape hs key fuel
  obtain ⟨rest, rfl⟩ := hs
  rw [Insert, hsearch]
  by_cases hk : Compare max key ≤ 0
  · simp [addChild, lock, unlock, store, load, minSentinel, maxSentinel, invalidSnapshot, hk]
  · simp [addChild, lock, unlock, store, load, minSentinel, maxSentinel, invalidSnapshot, hk,
      newNode, alloc]

theorem insert_keeps_shape {K V : Type} [Comparable K] [Inhabited V] {min max : K}
    (key : K) (value : V) :
    ∀ (fuel : Nat) (st : TreeState K V) (existed : Bool) (st' : TreeState K V),
      SentinelShape min max st → Insert st key value fuel = .ok (existed, st') →
      SentinelShape min max st' ∧ existed = false := by
  intro fuel
  induction fuel with
  | zero =>
    intro st existed st' _ h
    simp [Insert] at h
  | succ n ih =>
    intro st existed st' hs h
    rw [insert_shape hs] at h
    split_ifs at h with hk
    · exact ih st existed st' hs h
    · obtain ⟨rest, rfl⟩ := hs
      simp only [Except.ok.injEq, Prod.mk.injEq] at h
      obtain ⟨h1, h2⟩ := h
      subst h2
      exact ⟨⟨(newNode rest key value (some 0)).2, by simp [newNode, alloc]⟩, h1.symm⟩

theorem built_shape {K V : Type} [Comparable K] [Inhabited V] {min max : K} {keys : List K}
    {st : TreeState K V} (hb : Built min max keys st) : SentinelShape min max st := by
  induction hb with
  | new f => exact new_shape min max f
  | insert key value fuel existed st' _ hins ih =>
    exact (insert_keeps_shape key value fuel _ existed st' ih hins).1

theorem max_above {K : Type} [Comparable K] (hc : OrderingContract K) {k max : K}
    (h : Compare k max < 0) : ¬ Compare max k ≤ 0 := by
  have := (hc.antisymm k max).1 h
  omega

theorem scenario1_built : Built (-100) 100 [5] scenario1 :=
  Built.insert 5 "a" 1 false scenario1 (Built.new Compare) rfl

theorem scenario2_built : Built (-100) 100 [3, 5] scenario2 :=
  Built.insert 3 "b" 1 false scenario2 scenario1_built rfl

theorem get_in_range {K V : Type} [Comparable K] [Inhabited V] {min max : K}
    {st : TreeState K V} (hs : SentinelShape min max st) {k : K} (hk : ¬ Compare max k ≤ 0)
    (fuel : Nat) : Get st k (fuel + 1) = .ok (default, false) := by
  rw [get_shape hs, if_neg hk]

theorem insert_in_range {K V : Type} [Comparable K] [Inhabited V] {min max : K}
    {st : TreeState K V} (hs : SentinelShape min max st) {k : K} (hk : ¬ Compare max k ≤ 0)
    (v : V) (fuel : Nat) :
    Insert st k v (fuel + 1) =
      .ok (false, { st with heap := (newNode st.heap k v (some 0)).2 }) := by
  rw [insert_shape hs, if_neg hk]

theorem get_retries_forever {K V : Type} [Comparable K] [Inhabited V] {min max : K}
    {st : TreeState K V} (hs : SentinelShape min max st) {k : K} (hk : Compare max k ≤ 0) :
    ∀ fuel : Nat, Get st k fuel = .error .outOfFuel := by
  intro fuel
  induction fuel with
  | zero => rfl
  | succ n ih => rw [get_shape hs, if_pos hk, ih]

theorem inorder_shape {K V : Type} [Inhabited V] {min max : K}
    {st : TreeState K V} (hs : SentinelShape min max st) (fuel : Nat) :
    inorder st.heap (fuel + 2) st.t.root = .ok [0, 1] ∧
      unmarkedKeys st.heap [0, 1] = [min, max] := by
  obtain ⟨rest, rfl⟩ := hs
  constructor
  · cases fuel <;> simp [inorder, load, minSentinel, maxSentinel]
  · simp [unmarkedKeys, minSentinel, maxSentinel]

/-! ## The search loop on a finite tree -/

theorem searchLoop_zero {K V : Type} [Comparable K] (h : Heap K V) (key : K) (fuel : Nat)
    (p : Ptr) : searchLoop h key fuel p 0 = .ok (p, 0) := by
  unfold searchLoop
  simp

theorem searchLoop_stop {K V : Type} [Comparable K] (h : Heap K V) (key : K) (fuel : Nat)
    (p : Ptr) (c : Int) (n : avlNode K V) (hc : c ≠ 0) (hn : load h p = .ok n)
    (hchild : (if c < 0 then n.left else n.right) = none) :
    searchLoop h key (fuel + 1) p c = .ok (p, c) := by
  unfold searchLoop
  simp only [hc, if_false, hn]
  rw [hchild]

theorem searchLoop_step {K V : Type} [Comparable K] (h : Heap K V) (key : K) (fuel : Nat)
    (p : Ptr) (c : Int) (n cn : avlNode K V) (ch : Nat) (hc : c ≠ 0) (hn : load h p = .ok n)
    (hchild : (if c < 0 then n.left else n.right) = some ch) (hcn : load h (some ch) = .ok cn) :
    searchLoop h key (fuel + 1) p c = searchLoop h key fuel (some ch) (Compare cn.key key) := by
  conv_lhs => unfold searchLoop
  simp only [hc, if_false, hn]
  rw [hchild]
  simp only [hcn]

theorem isTree_some {K V : Type} {h : Heap K V} {a : Nat} {s : Shape}
    (ht : IsTree h (some a) s) :
    ∃ l r n, s = .node l a r ∧ h[a]? = some n ∧ IsTree h n.left l ∧ IsTree h n.right r := by
  cases s with
  | nil => simp [IsTree] at ht
  | node l b r =>
    simp only [IsTree] at ht
    obtain ⟨rfl, ht⟩ := ht
    cases hn : h[a]? with
    | none => simp [hn] at ht
    | some n =>
      simp only [hn] at ht
      exact ⟨l, r, n, rfl, rfl, ht.1, ht.2⟩

theorem load_some {K V : Type} {h : Heap K V} {a : Nat} {n : avlNode K V}
    (hn : h[a]? = some n) : load h (some a) = .ok n := by
  simp [load, hn]

theorem height_pos_of_mem {s : Shape} {b : Nat} (hb : b ∈ s.addrs) : 1 ≤ s.height := by
  cases s with
  | nil => simp [Shape.addrs] at hb
  | node l a r => simp [Shape.height]

theorem height_left_le (l : Shape) (a : Nat) (r : Shape) :
    l.height + 1 ≤ (Shape.node l a r).height := by
  simp [Shape.height]

theorem height_right_le (l : Shape) (a : Nat) (r : Shape) :
    r.height + 1 ≤ (Shape.node l a r).height := by
  simp [Shape.height]

theorem searchLoop_finds {K V : Type} [Comparable K] (hc : OrderingContract K)
    (h : Heap K V) (b : Nat) (nb : avlNode K V) (hnb : h[b]? = some nb) :
    ∀ (s : Shape) (p : Nat) (np : avlNode K V) (fuel : Nat),
      IsTree h (some p) s → MirrorOrder h s → b ∈ s.addrs → h[p]? = some np →
      s.height ≤ fuel + 1 →
      searchLoop h nb.key fuel (some p) (Compare np.key nb.key) = .ok (some b, 0) := by
  intro s
  induction s with
  | nil =>
    intro p np fuel _ _ hb
    simp [Shape.addrs] at hb
  | node l a r ihl ihr =>
    intro p np fuel ht hord hb hnp hfuel
    obtain ⟨l1, r1, n, hs, hn, htl, htr⟩ := isTree_some ht
    injection hs with e1 e2 e3
    subst e1 e2 e3
    have hnn : n = np := by
      rw [hn] at hnp
      exact Option.some.inj hnp
    subst hnn
    simp only [MirrorOrder] at hord
    obtain ⟨hleft, hright, hol, hor⟩ := hord
    have hhl := height_left_le l a r
    have hhr := height_right_le l a r
    simp only [Shape.addrs, List.mem_append, List.mem_cons] at hb
    have hkp : keyAt h a = some n.key := by simp [keyAt, hn]
    have hkb : keyAt h b = some nb.key := by simp [keyAt, hnb]
    rcases hb with hb | hb | hb
    · -- the key sits in the left subtree
      have hgt := hleft b hb _ _ hkp hkb
      have hlt : Compare n.key nb.key < 0 := (hc.antisymm _ _).2 hgt
      have hpos := height_pos_of_mem hb
      obtain ⟨f, rfl⟩ : ∃ f, fuel = f + 1 := ⟨fuel - 1, by omega⟩
      cases hch : n.left with
      | none =>
        rw [hch] at htl
        cases l with
        | nil => simp [Shape.addrs] at hb
        | node _ _ _ => simp [IsTree] at htl
      | some ch =>
        rw [hch] at htl
        obtain ⟨_, _, cn, _, hcn, _, _⟩ := isTree_some htl
        rw [searchLoop_step h nb.key f (some a) _ n cn ch (by omega) (load_some hn)
          (by rw [if_pos hlt, hch]) (load_some hcn)]
        exact ihl ch cn f htl hol hb hcn (by omega)
    · -- the key sits in this node
      subst hb
      have hnn : nb = n := by
        rw [hn] at hnb
        exact (Option.some.inj hnb).symm
      subst hnn
      rw [hc.refl]
      exact searchLoop_zero h _ fuel _
    · -- the key sits in the right subtree
      have hlt := hright b hb _ _ hkp hkb
      have hgt : 0 < Compare n.key nb.key := (hc.antisymm _ _).1 hlt
      have hpos := height_pos_of_mem hb
      obtain ⟨f, rfl⟩ : ∃ f, fuel = f + 1 := ⟨fuel - 1, by omega⟩
      cases hch : n.right with
      | none =>
        rw [hch] at htr
        cases r with
        | nil => simp [Shape.addrs] at hb
        | node _ _ _ => simp [IsTree] at htr
      | some ch =>
        rw [hch] at htr
        obtain ⟨_, _, cn, _, hcn, _, _⟩ := isTree_some htr
        rw [searchLoop_step h nb.key f (some a) _ n cn ch (by omega) (load_some hn)
          (by rw [if_neg (by omega), hch]) (load_some hcn)]
        exact ihr ch cn f htr hor hb hcn (by omega)

theorem searchLoop_returns {K V : Type} [Comparable K] (h : Heap K V) (key : K) :
    ∀ (s : Shape) (p : Nat) (fuel : Nat) (c : Int),
      IsTree h (some p) s → s.height ≤ fuel →
      ∃ q r, searchLoop h key fuel (some p) c = .ok (q, r) ∧
        ((q = some p ∧ r = c ∧
            (c ≠ 0 → ∃ n, load h (some p) = .ok n ∧
              (if c < 0 then n.left else n.right) = none)) ∨
          ∃ n, load h q = .ok n ∧ r = Compare n.key key) := by
  intro s
  induction s with
  | nil =>
    intro p fuel c ht
    simp [IsTree] at ht
  | node l a r ihl ihr =>
    intro p fuel c ht hfuel
    obtain ⟨l1, r1, n, hs, hn, htl, htr⟩ := isTree_some ht
    injection hs with e1 e2 e3
    subst e1 e2 e3
    have hhl := height_left_le l a r
    have hhr := height_right_le l a r
    by_cases hc0 : c = 0
    · subst hc0
      exact ⟨some a, 0, searchLoop_zero h key fuel _, Or.inl ⟨rfl, rfl, fun hne => absurd rfl hne⟩⟩
    · obtain ⟨f, rfl⟩ : ∃ f, fuel = f + 1 := ⟨fuel - 1, by omega⟩
      cases hch : (if c < 0 then n.left else n.right) with
      | none =>
        exact ⟨some a, c, searchLoop_stop h key f _ c n hc0 (load_some hn) hch,
          Or.inl ⟨rfl, rfl, fun _ => ⟨n, load_some hn, hch⟩⟩⟩
      | some ch =>
        have hsub : ∃ s', IsTree h (some ch) s' ∧ s'.height ≤ f ∧
            (∀ (p : Nat) (fuel : Nat) (c : Int), IsTree h (some p) s' → s'.height ≤ fuel →
              ∃ q r, searchLoop h key fuel (some p) c = .ok (q, r) ∧
                ((q = some p ∧ r = c ∧
                    (c ≠ 0 → ∃ n, load h (some p) = .ok n ∧
                      (if c < 0 then n.left else n.right) = none)) ∨
                  ∃ n, load h q = .ok n ∧ r = Compare n.key key)) := by
          by_cases hneg : c < 0
          · rw [if_pos hneg] at hch
            rw [hch] at htl
            exact ⟨l, htl, by omega, ihl⟩
          · rw [if_neg hneg] at hch
            rw [hch] at htr
            exact ⟨r, htr, by omega, ihr⟩
        obtain ⟨s', hts, hhs, ih⟩ := hsub
        obtain ⟨_, _, cn, _, hcn, _, _⟩ := isTree_some hts
        obtain ⟨q, r', hrun, hres⟩ := ih ch f (Compare cn.key key) hts hhs
        refine ⟨q, r', ?_, Or.inr ?_⟩
        · rw [searchLoop_step h key f (some a) c n cn ch hc0 (load_some hn) hch (load_some hcn)]
          exact hrun
        · rcases hres with ⟨hq, hr, _⟩ | hres
          · subst hq
            exact ⟨cn, load_some hcn, hr⟩
          · exact hres

/-! ## The claims -/

/-- C1 (the code does not do this): read-your-write.  On the tree
`NewConcAvlTree(-100, 100, _)`, `Insert(5, "a")` returns false and leaves the
two sentinels linked as before, with the new node allocated at address 2 and
linked from nowhere; the following `Get(5)` returns `("", false)` for every
fuel, not `("a", true)`. -/
theorem read_your_write_fails :
    Insert scenario0 5 "a" 1 = .ok (false, scenario1) ∧
    scenario1.t = scenario0.t ∧
    scenario1.heap = scenario0.heap ++
      [{ key := 5, value := "a", height := 0, marked := false, parent := some 0, left := none,
         right := none, leftSnapshot := none, rightSnapshot := none, mtx := false }] ∧
    ∀ fuel : Nat, Get scenario1 5 (fuel + 1) = .ok ("", false) :=
  ⟨rfl, rfl, rfl, fun fuel => get_in_range (built_shape scenario1_built) (by decide) fuel⟩

/-- C2 (the code does not do this): idempotent overwrite.  After
`Insert(5, "a")`, the call `Insert(5, "c")` returns false, not true, and the
following `Get(5)` returns `("", false)` for every fuel, not `("c", true)`. -/
theorem overwrite_reports_new_key :
    Insert scenario0 5 "a" 1 = .ok (false, scenario1) ∧
    Insert scenario1 5 "c" 1 = .ok (false, afterInsert scenario1 5 "c") ∧
    ∀ fuel : Nat, Get (afterInsert scenario1 5 "c") 5 (fuel + 1) = .ok ("", false) :=
  ⟨rfl, rfl, fun fuel =>
    get_in_range (built_shape (Built.insert 5 "c" 1 false (afterInsert scenario1 5 "c") scenario1_built (by rfl)))
      (by decide) fuel⟩

/-- C3: on a tree built by `NewConcAvlTree` and any earlier `Insert` calls,
`Insert(k, v)` of a key strictly between `min` and `max` that was not inserted
before returns false, whatever fuel it is given. -/
theorem insert_new_key_returns_false {K V : Type} [Comparable K] [Inhabited V]
    (hc : OrderingContract K) {min max : K} {keys : List K} {st : TreeState K V}
    (hb : Built min max keys st) (k : K) (v : V)
    (_hlo : Compare min k < 0) (hhi : Compare k max < 0) (_hnew : k ∉ keys) (fuel : Nat) :
    ∃ st', Insert st k v (fuel + 1) = .ok (false, st') :=
  ⟨_, insert_in_range (built_shape hb) (max_above hc hhi) v fuel⟩

theorem insert_new_key_returns_false_witness :
    OrderingContract Int ∧ Built (-100) 100 [3, 5] scenario2 ∧
    Compare (-100 : Int) 7 < 0 ∧ Compare (7 : Int) 100 < 0 ∧ (7 : Int) ∉ [3, 5] ∧
    ∃ st', Insert scenario2 7 "z" 1 = .ok (false, st') :=
  ⟨intContract, scenario2_built, by decide, by decide, by decide,
    insert_new_key_returns_false intContract scenario2_built 7 "z"
      (by decide) (by decide) (by decide) 0⟩

/-- C4: on a tree built by `NewConcAvlTree` and any `Insert` calls, `Get(k)` of
a key strictly between `min` and `max` that was never inserted returns the zero
value of `V` with found = false, and `Contains(k)` returns false. -/
theorem get_absent_key {K V : Type} [Comparable K] [Inhabited V]
    (hc : OrderingContract K) {min max : K} {keys : List K} {st : TreeState K V}
    (hb : Built min max keys st) (k : K)
    (_hlo : Compare min k < 0) (hhi : Compare k max < 0) (_hnew : k ∉ keys) (fuel : Nat) :
    Get st k (fuel + 1) = .ok (default, false) ∧ Contains st k (fuel + 1) = .ok false := by
  have hg := get_in_range (built_shape hb) (max_above hc hhi) fuel
  exact ⟨hg, by rw [Contains, hg]⟩

theorem get_absent_key_witness :
    OrderingContract Int ∧ Built (-100) 100 [3, 5] scenario2 ∧
    Compare (-100 : Int) 9 < 0 ∧ Compare (9 : Int) 100 < 0 ∧ (9 : Int) ∉ [3, 5] ∧
    Get scenario2 9 1 = .ok ("", false) ∧ Contains scenario2 9 1 = .ok false :=
  ⟨intContract, scenario2_built, by decide, by decide, by decide,
    get_absent_key intContract scenario2_built 9 (by decide) (by decide) (by decide) 0⟩

/-- C5, as stated, fails: on the scenario tree after two inserts, `Get(max)`
returns for no fuel at all. -/
theorem get_max_never_returns : ¬ ∃ (fuel : Nat) (r : String × Bool),
    Get scenario2 100 fuel = .ok r := by
  rintro ⟨fuel, r, h⟩
  rw [get_retries_forever (built_shape scenario2_built) (by decide) fuel] at h
  cases h

/-- C5, amended: with `min < max`, after any sequence of `Insert` calls,
`Get(min)` returns found = false, and `Get(max)` never returns: each pass of
its retry loop finds the snapshot invalid and starts over, so it runs out of
every fuel (and reports found = true for no fuel). -/
theorem sentinel_lookup {K V : Type} [Comparable K] [Inhabited V]
    (hc : OrderingContract K) {min max : K} {keys : List K} {st : TreeState K V}
    (hb : Built min max keys st) (hlt : Compare min max < 0) :
    (∀ fuel : Nat, Get st min (fuel + 1) = .ok (default, false)) ∧
    (∀ fuel : Nat, Get st max fuel = .error .outOfFuel) :=
  ⟨fun fuel => get_in_range (built_shape hb) (max_above hc hlt) fuel,
   get_retries_forever (built_shape hb) (le_of_eq (hc.refl max))⟩

theorem sentinel_lookup_witness :
    OrderingContract Int ∧ Built (-100) 100 [3, 5] scenario2 ∧ Compare (-100 : Int) 100 < 0 ∧
    (∀ fuel : Nat, Get scenario2 (-100) (fuel + 1) = .ok ("", false)) ∧
    (∀ fuel : Nat, Get scenario2 100 fuel = .error .outOfFuel) :=
  ⟨intContract, scenario2_built, by decide,
    sentinel_lookup intContract scenario2_built (by decide)⟩

/-- C6: with `min < max`, after any sequence of `Insert` calls of keys strictly
between `min` and `max`, the in-order walk from the root returns (for every
fuel of at least 2), and the keys of the unmarked nodes it visits are
strictly increasing under `Compare`. -/
theorem inorder_strictly_increasing {K V : Type} [Comparable K] [Inhabited V]
    {min max : K} {keys : List K} {st : TreeState K V}
    (hb : Built min max keys st) (hlt : Compare min max < 0)
    (_hkeys : ∀ k ∈ keys, Compare min k < 0 ∧ Compare k max < 0) (fuel : Nat) :
    ∃ addrs, inorder st.heap (fuel + 2) st.t.root = .ok addrs ∧
      StrictlyIncreasing (unmarkedKeys st.heap addrs) := by
  obtain ⟨h1, h2⟩ := inorder_shape (built_shape hb) fuel
  refine ⟨[0, 1], h1, ?_⟩
  rw [h2]
  simp [StrictlyIncreasing, hlt]

theorem inorder_strictly_increasing_witness :
    Built (-100) 100 [3, 5] scenario2 ∧ Compare (-100 : Int) 100 < 0 ∧
    (∀ k ∈ [(3 : Int), 5], Compare (-100 : Int) k < 0 ∧ Compare k 100 < 0) ∧
    ∃ addrs, inorder scenario2.heap 2 scenario2.t.root = .ok addrs ∧
      StrictlyIncreasing (unmarkedKeys scenario2.heap addrs) :=
  ⟨scenario2_built, by decide, by decide,
    inorder_strictly_increasing scenario2_built (by decide) (by decide) 0⟩

/-- C7: on a tree built by `NewConcAvlTree` and any `Insert` calls, for every
key strictly between `min` and `max`, `Get`, `Contains` and `Insert` each
return a value, already with fuel 1 (one pass of the retry loop) and with
every larger fuel. -/
theorem calls_return {K V : Type} [Comparable K] [Inhabited V]
    (hc : OrderingContract K) {min max : K} {keys : List K} {st : TreeState K V}
    (hb : Built min max keys st) (k : K) (v : V)
    (_hlo : Compare min k < 0) (hhi : Compare k max < 0) (fuel : Nat) :
    (∃ r, Get st k (fuel + 1) = .ok r) ∧ (∃ b, Contains st k (fuel + 1) = .ok b) ∧
      (∃ r, Insert st k v (fuel + 1) = .ok r) := by
  have hg := get_in_range (built_shape hb) (max_above hc hhi) fuel
  exact ⟨⟨_, hg⟩, ⟨false, by rw [Contains, hg]⟩,
    ⟨_, insert_in_range (built_shape hb) (max_above hc hhi) v fuel⟩⟩

theorem calls_return_witness :
    OrderingContract Int ∧ Built (-100) 100 [3, 5] scenario2 ∧
    Compare (-100 : Int) 3 < 0 ∧ Compare (3 : Int) 100 < 0 ∧
    (∃ r, Get scenario2 3 1 = .ok r) ∧ (∃ b, Contains scenario2 3 1 = .ok b) ∧
      (∃ r, Insert scenario2 3 "d" 1 = .ok r) :=
  ⟨intContract, scenario2_built, by decide, by decide,
    calls_return intContract scenario2_built 3 "d" (by decide) (by decide) 0⟩

/-- C8: `NewConcAvlTree(min, max, _)` returns a tree whose root is the
min-sentinel (key `min`), whose right child is the max-sentinel (key `max`,
parent the min-sentinel), with the min-sentinel's `leftSnapshot` the
max-sentinel and the max-sentinel's `rightSnapshot` the min-sentinel, both
unmarked; the heap holds these two nodes only, and following pointer fields
from the root reaches no other node. -/
theorem construction {K V : Type} [Inhabited V] (min max : K) (f : K → K → Int) :
    let st : TreeState K V := NewConcAvlTree min max f
    ∃ lo hi : avlNode K V,
      st.t.root = st.t.leftSentinel ∧ st.t.leftSentinel ≠ st.t.rightSentinel ∧
      load st.heap st.t.leftSentinel = .ok lo ∧ load st.heap st.t.rightSentinel = .ok hi ∧
      lo.key = min ∧ hi.key = max ∧
      lo.right = st.t.rightSentinel ∧ hi.parent = st.t.leftSentinel ∧
      lo.leftSnapshot = st.t.rightSentinel ∧ hi.rightSnapshot = st.t.leftSentinel ∧
      lo.marked = false ∧ hi.marked = false ∧
      st.heap.length = 2 ∧
      ∀ q, Reachable st.heap st.t.root q →
        some q = st.t.leftSentinel ∨ some q = st.t.rightSentinel := by
  intro st
  have hne : (some 0 : Ptr) ≠ some 1 := by decide
  refine ⟨minSentinel min, maxSentinel max, rfl, hne, rfl, rfl, rfl, rfl, rfl, rfl, rfl,
    rfl, rfl, rfl, rfl, ?_⟩
  rintro q ⟨a, ha, hreach⟩
  have ha0 : a = 0 := by
    have : (some 0 : Ptr) = some a := ha
    exact (Option.some.inj this).symm
  subst ha0
  have key : q = 0 ∨ q = 1 := by
    induction hreach with
    | refl => exact Or.inl rfl
    | tail _ hstep ih =>
      obtain ⟨n, hn, hfield⟩ := hstep
      rcases ih with rfl | rfl
      · have hn0 : n = minSentinel min := by
          have : some (minSentinel min) = some n := hn
          exact (Option.some.inj this).symm
        subst hn0
        simp [minSentinel] at hfield
        exact Or.inr hfield.symm
      · have hn1 : n = maxSentinel max := by
          have : some (maxSentinel max) = some n := hn
          exact (Option.some.inj this).symm
        subst hn1
        simp [maxSentinel] at hfield
        exact Or.inl hfield.symm
  rcases key with rfl | rfl
  · exact Or.inl rfl
  · exact Or.inr rfl

/-- C9, as stated, fails.  The hand-built tree `chainAscending` (root 9, its
left child 5, whose left child is 3) is a finite tree in the BST order of the
specification, and the keys 3 and 9 are stored in nodes of it; yet the search
for 3 stops at the node holding 5 with `compRes = 1`, and neither 3 nor the
root's own key 9 is returned by the search with `compRes = 0`, whatever the
fuel. -/
theorem search_misses_stored_keys :
    IsTree chainAscending.heap chainAscending.t.root chainShape ∧
    BstOrder chainAscending.heap chainShape ∧
    2 ∈ chainShape.addrs ∧ keyAt chainAscending.heap 2 = some 3 ∧
    0 ∈ chainShape.addrs ∧ keyAt chainAscending.heap 0 = some 9 ∧
    searchForKey chainAscending 3 3 = .ok (some 1, 1) ∧
    (¬ ∃ fuel, searchForKey chainAscending 3 fuel = .ok (some 2, 0)) ∧
    (¬ ∃ fuel, searchForKey chainAscending 9 fuel = .ok (some 0, 0)) := by
  refine ⟨?_, ?_, ?_, rfl, ?_, rfl, rfl, ?_, ?_⟩
  · simp [IsTree, chainShape, chainAscending, plainNode]
  · simp [BstOrder, chainShape, chainAscending, plainNode, keyAt, Shape.addrs, Compare]
  · simp [chainShape, Shape.addrs]
  · simp [chainShape, Shape.addrs]
  · rintro ⟨fuel, h⟩
    rcases fuel with _ | _ | f <;>
      simp [searchForKey, searchLoop, chainAscending, plainNode, load, Compare] at h
  · rintro ⟨fuel, h⟩
    rcases fuel with _ | _ | _ | f <;>
      simp [searchForKey, searchLoop, chainAscending, plainNode, load, Compare] at h

/-- C9, amended.  `searchForKey` enters its loop at the root with
`compRes = -2`: it does not compare the root's key and first moves to the
root's left child.  At every node visited after that it sets
`compRes = node.key.Compare(target)` and moves to the left child if
`compRes < 0` (the target is greater than the node's key) and to the right
child if `compRes > 0` (the target is less).  Consequently, for every finite
tree whose part below the root's left link is in the mirrored order (left
subtree greater, right subtree less), and every key stored in a node of that
part, `searchForKey` returns that node with `compRes = 0`. -/
theorem search_finds_stored_key {K V : Type} [Comparable K] (hc : OrderingContract K)
    (st : TreeState K V) (l r : Shape) (a : Nat)
    (htree : IsTree st.heap st.t.root (.node l a r)) (hord : MirrorOrder st.heap l)
    (b : Nat) (nb : avlNode K V) (hb : b ∈ l.addrs) (hnb : st.heap[b]? = some nb)
    (fuel : Nat) (hfuel : l.height ≤ fuel) :
    searchForKey st nb.key fuel = .ok (some b, 0) ∧
    (∀ (key : K) (f : Nat) (n cn : avlNode K V) (ch : Nat),
      load st.heap st.t.root = .ok n → n.left = some ch → load st.heap (some ch) = .ok cn →
      searchForKey st key (f + 1) = searchLoop st.heap key f (some ch) (Compare cn.key key)) ∧
    (∀ (key : K) (f : Nat) (p : Ptr) (n cn : avlNode K V) (ch : Nat),
      load st.heap p = .ok n → Compare n.key key ≠ 0 →
      (if Compare n.key key < 0 then n.left else n.right) = some ch →
      load st.heap (some ch) = .ok cn →
      searchLoop st.heap key (f + 1) p (Compare n.key key) =
        searchLoop st.heap key f (some ch) (Compare cn.key key)) := by
  refine ⟨?_, ?_, ?_⟩
  · cases hroot : st.t.root with
    | none =>
      rw [hroot] at htree
      simp [IsTree] at htree
    | some a0 =>
      rw [hroot] at htree
      obtain ⟨l1, r1, n, hs, hn, htl, _⟩ := isTree_some htree
      injection hs with e1 e2 e3
      subst e1 e2 e3
      have hpos := height_pos_of_mem hb
      obtain ⟨f, rfl⟩ : ∃ f, fuel = f + 1 := ⟨fuel - 1, by omega⟩
      cases hch : n.left with
      | none =>
        rw [hch] at htl
        cases l with
        | nil => simp [Shape.addrs] at hb
        | node _ _ _ => simp [IsTree] at htl
      | some ch =>
        rw [hch] at htl
        obtain ⟨_, _, cn, _, hcn, _, _⟩ := isTree_some htl
        rw [searchForKey, hroot,
          searchLoop_step st.heap nb.key f (some a) (-2) n cn ch (by decide) (load_some hn)
            (by rw [if_pos (by decide), hch]) (load_some hcn)]
        exact searchLoop_finds hc st.heap b nb hnb l ch cn f htl hord hb hcn (by omega)
  · intro key f n cn ch hn hch hcn
    rw [searchForKey]
    exact searchLoop_step st.heap key f st.t.root (-2) n cn ch (by decide) hn
      (by rw [if_pos (by decide), hch]) hcn
  · intro key f p n cn ch hn hne hch hcn
    exact searchLoop_step st.heap key f p _ n cn ch hne hn hch hcn

theorem search_finds_stored_key_witness :
    OrderingContract Int ∧
    IsTree mirrored.heap mirrored.t.root (.node mirroredLeft 0 .nil) ∧
    MirrorOrder mirrored.heap mirroredLeft ∧
    3 ∈ mirroredLeft.addrs ∧ mirrored.heap[3]? = some (plainNode 3 "c" none none) ∧
    mirroredLeft.height ≤ 2 ∧
    searchForKey mirrored 3 2 = .ok (some 3, 0) :=
  have htree : IsTree mirrored.heap mirrored.t.root (.node mirroredLeft 0 .nil) := by
    simp [IsTree, mirroredLeft, mirrored, plainNode]
  have hord : MirrorOrder mirrored.heap mirroredLeft := by
    simp [MirrorOrder, mirroredLeft, mirrored, plainNode, keyAt, Shape.addrs, Compare]
  have hmem : 3 ∈ mirroredLeft.addrs := by simp [mirroredLeft, Shape.addrs]
  have hheight : mirroredLeft.height ≤ 2 := by simp [mirroredLeft, Shape.height]
  ⟨intContract, htree, hord, hmem, rfl, hheight,
    (search_finds_stored_key intContract mirrored mirroredLeft .nil 0 htree hord 3
      (plainNode 3 "c" none none) hmem rfl 2 hheight).1⟩

/-- C10, as stated, fails: on the tree `NewConcAvlTree(-100, 100, _)` the
search for 5 returns the root with `compRes = -2` (for every fuel), while the
root's key compares to 5 as `-1`. -/
theorem root_result_is_no_comparison :
    (∀ fuel : Nat, searchForKey scenario0 5 (fuel + 1) = .ok (some 0, -2)) ∧
    ∃ n, load scenario0.heap (some 0) = .ok n ∧ Compare n.key 5 = -1 ∧
      (-2 : Int) ≠ Compare n.key 5 :=
  ⟨fun fuel => search_shape (new_shape _ _ _) 5 fuel, _, rfl, rfl, by decide⟩

/-- C10, amended: for every finite tree and every target key, `searchForKey`
returns a pair `(lastNode, compRes)` such that either no step was taken (the
root's left child is nil, `lastNode` is the root and `compRes = -2`, the
root's key not having been compared) or `compRes = lastNode.key.Compare(key)`;
and `compRes = 0` only when `lastNode.key` compares equal to the target. -/
theorem search_result_meaning {K V : Type} [Comparable K] (st : TreeState K V) (key : K)
    (l r : Shape) (a : Nat) (htree : IsTree st.heap st.t.root (.node l a r))
    (fuel : Nat) (hfuel : (Shape.node l a r).height ≤ fuel) :
    ∃ lastNode compRes, searchForKey st key fuel = .ok (lastNode, compRes) ∧
      ((lastNode = st.t.root ∧ compRes = -2 ∧
          ∃ n, load st.heap st.t.root = .ok n ∧ n.left = none) ∨
        ∃ n, load st.heap lastNode = .ok n ∧ compRes = Compare n.key key) ∧
      (compRes = 0 → ∃ n, load st.heap lastNode = .ok n ∧ Compare n.key key = 0) := by
  cases hroot : st.t.root with
  | none =>
    rw [hroot] at htree
    simp [IsTree] at htree
  | some a0 =>
    rw [hroot] at htree
    obtain ⟨q, c, hrun, hres⟩ :=
      searchLoop_returns st.heap key (.node l a r) a0 fuel (-2) htree hfuel
    refine ⟨q, c, by rw [searchForKey, hroot]; exact hrun, ?_, ?_⟩
    · rcases hres with ⟨hq, hc2, hnil⟩ | hres
      · obtain ⟨n, hn, hleft⟩ := hnil (by decide)
        exact Or.inl ⟨hq, hc2, n, hn, by simpa using hleft⟩
      · exact Or.inr hres
    · intro hc0
      rcases hres with ⟨_, hc2, _⟩ | ⟨n, hn, hcn⟩
      · rw [hc0] at hc2
        exact absurd hc2 (by decide)
      · exact ⟨n, hn, by rw [← hcn, hc0]⟩

theorem search_result_meaning_witness :
    IsTree mirrored.heap mirrored.t.root (.node mirroredLeft 0 .nil) ∧
    (Shape.node mirroredLeft 0 .nil).height ≤ 3 ∧
    ∃ lastNode compRes, searchForKey mirrored 4 3 = .ok (lastNode, compRes) ∧
      ((lastNode = mirrored.t.root ∧ compRes = -2 ∧
          ∃ n, load mirrored.heap mirrored.t.root = .ok n ∧ n.left = none) ∨
        ∃ n, load mirrored.heap lastNode = .ok n ∧ compRes = Compare n.key 4) ∧
      (compRes = 0 → ∃ n, load mirrored.heap lastNode = .ok n ∧ Compare n.key 4 = 0) :=
  have htree : IsTree mirrored.heap mirrored.t.root (.node mirroredLeft 0 .nil) := by
    simp [IsTree, mirroredLeft, mirrored, plainNode]
  have hheight : (Shape.node mirroredLeft 0 .nil).height ≤ 3 := by
    simp [mirroredLeft, Shape.height]
  ⟨htree, hheight, search_result_meaning mirrored 4 mirroredLeft .nil 0 htree 3 hheight⟩

theorem searchLoop_stops {K V : Type} [Comparable K] (h : Heap K V) (key : K) :
    ∀ (s : Shape) (p : Nat) (fuel : Nat) (c : Int),
      IsTree h (some p) s → s.height ≤ fuel →
      ∃ q r, searchLoop h key fuel (some p) c = .ok (some q, r) ∧
        Relation.ReflTransGen (ChildLink h) p q ∧
        (r ≠ 0 → ∃ n, load h (some q) = .ok n ∧
          (if r < 0 then n.left else n.right) = none) := by
  intro s
  induction s with
  | nil =>
    intro p fuel c ht
    simp [IsTree] at ht
  | node l a r ihl ihr =>
    intro p fuel c ht hfuel
    obtain ⟨l1, r1, n, hs, hn, htl, htr⟩ := isTree_some ht
    injection hs with e1 e2 e3
    subst e1 e2 e3
    have hhl := height_left_le l a r
    have hhr := height_right_le l a r
    by_cases hc0 : c = 0
    · subst hc0
      exact ⟨a, 0, searchLoop_zero h key fuel _, Relation.ReflTransGen.refl,
        fun hne => absurd rfl hne⟩
    · obtain ⟨f, rfl⟩ : ∃ f, fuel = f + 1 := ⟨fuel - 1, by omega⟩
      cases hch : (if c < 0 then n.left else n.right) with
      | none =>
        exact ⟨a, c, searchLoop_stop h key f _ c n hc0 (load_some hn) hch,
          Relation.ReflTransGen.refl, fun _ => ⟨n, load_some hn, hch⟩⟩
      | some ch =>
        have hlink : ChildLink h a ch := by
          refine ⟨n, hn, ?_⟩
          by_cases hneg : c < 0
          · rw [if_pos hneg] at hch
            exact Or.inl hch
          · rw [if_neg hneg] at hch
            exact Or.inr hch
        have hcn : ∃ cn, h[ch]? = some cn := by
          by_cases hneg : c < 0
          · rw [if_pos hneg] at hch
            rw [hch] at htl
            obtain ⟨_, _, cn, _, hcn, _, _⟩ := isTree_some htl
            exact ⟨cn, hcn⟩
          · rw [if_neg hneg] at hch
            rw [hch] at htr
            obtain ⟨_, _, cn, _, hcn, _, _⟩ := isTree_some htr
            exact ⟨cn, hcn⟩
        obtain ⟨cn, hcn⟩ := hcn
        have hsub : ∃ q r', searchLoop h key f (some ch) (Compare cn.key key) = .ok (some q, r') ∧
            Relation.ReflTransGen (ChildLink h) ch q ∧
            (r' ≠ 0 → ∃ n, load h (some q) = .ok n ∧
              (if r' < 0 then n.left else n.right) = none) := by
          by_cases hneg : c < 0
          · rw [if_pos hneg] at hch
            rw [hch] at htl
            exact ihl ch f _ htl (by omega)
          · rw [if_neg hneg] at hch
            rw [hch] at htr
            exact ihr ch f _ htr (by omega)
        obtain ⟨q, r', hrun, hreach, hstop⟩ := hsub
        refine ⟨q, r', ?_, Relation.ReflTransGen.head hlink hreach, hstop⟩
        rw [searchLoop_step h key f (some a) c n cn ch hc0 (load_some hn) hch (load_some hcn)]
        exact hrun

/-- C11: for every finite tree (with a root) and every target key,
`searchForKey` returns once the fuel covers the height of the tree; the node
it returns is reached from the root through child links; and whenever the
returned `compRes` is non-zero, the child slot of that node on the side of the
next step (left if `compRes < 0`, right if `compRes > 0`) is nil. -/
theorem search_stop_condition {K V : Type} [Comparable K] (st : TreeState K V) (key : K)
    (l r : Shape) (a : Nat) (htree : IsTree st.heap st.t.root (.node l a r))
    (fuel : Nat) (hfuel : (Shape.node l a r).height ≤ fuel) :
    ∃ q compRes, searchForKey st key fuel = .ok (some q, compRes) ∧
      ReachableDown st.heap st.t.root q ∧
      (compRes < 0 → ∃ n, load st.heap (some q) = .ok n ∧ n.left = none) ∧
      (compRes > 0 → ∃ n, load st.heap (some q) = .ok n ∧ n.right = none) := by
  cases hroot : st.t.root with
  | none =>
    rw [hroot] at htree
    simp [IsTree] at htree
  | some a0 =>
    rw [hroot] at htree
    obtain ⟨q, c, hrun, hreach, hstop⟩ :=
      searchLoop_stops st.heap key (.node l a r) a0 fuel (-2) htree hfuel
    refine ⟨q, c, by rw [searchForKey, hroot]; exact hrun, ⟨a0, rfl, hreach⟩, ?_, ?_⟩
    · intro hneg
      obtain ⟨n, hn, hside⟩ := hstop (by omega)
      rw [if_pos hneg] at hside
      exact ⟨n, hn, hside⟩
    · intro hpos
      obtain ⟨n, hn, hside⟩ := hstop (by omega)
      rw [if_neg (by omega)] at hside
      exact ⟨n, hn, hside⟩

theorem search_stop_condition_witness :
    IsTree mirrored.heap mirrored.t.root (.node mirroredLeft 0 .nil) ∧
    (Shape.node mirroredLeft 0 .nil).height ≤ 3 ∧
    ∃ q compRes, searchForKey mirrored 4 3 = .ok (some q, compRes) ∧
      ReachableDown mirrored.heap mirrored.t.root q ∧
      (compRes < 0 → ∃ n, load mirrored.heap (some q) = .ok n ∧ n.left = none) ∧
      (compRes > 0 → ∃ n, load mirrored.heap (some q) = .ok n ∧ n.right = none) :=
  have htree : IsTree mirrored.heap mirrored.t.root (.node mirroredLeft 0 .nil) := by
    simp [IsTree, mirroredLeft, mirrored, plainNode]
  have hheight : (Shape.node mirroredLeft 0 .nil).height ≤ 3 := by
    simp [mirroredLeft, Shape.height]
  ⟨htree, hheight, search_stop_condition mirrored 4 mirroredLeft .nil 0 htree 3 hheight⟩

theorem invalidSnapshot_eq {K V : Type} [Comparable K] (h : Heap K V) (lastNode : Ptr)
    (key : K) (c : Int) (n ls rs : avlNode K V) (hn : load h lastNode = .ok n)
    (hls : load h n.leftSnapshot = .ok ls) (hrs : load h n.rightSnapshot = .ok rs) :
    invalidSnapshot h lastNode key c =
      .ok (decide ((c < 0 ∧ Compare ls.key key ≤ 0) ∨ (c > 0 ∧ Compare rs.key key ≥ 0))) := by
  unfold invalidSnapshot
  by_cases h1 : c < 0
  · have h2 : ¬ c > 0 := by omega
    simp [h1, h2, hn, hls]
  · by_cases h2 : c > 0
    · simp [h1, h2, hn, hrs]
    · simp [h1, h2]

/-- C12: for a node whose two snapshot pointers are set, `invalidSnapshot`
returns true exactly when `compRes < 0` and the `leftSnapshot` key compares
less than or equal to the key, or `compRes > 0` and the `rightSnapshot` key
compares greater than or equal to it; and when the traversal ends at that node
without a match, `Get` starts over exactly when the node is marked or this
predicate holds, and otherwise returns the zero value with found = false. -/
theorem validation_predicate {K V : Type} [Comparable K] [Inhabited V] (st : TreeState K V)
    (key : K) (fuel : Nat) (lastNode : Ptr) (compRes : Int) (n ls rs : avlNode K V)
    (hn : load st.heap lastNode = .ok n)
    (hls : load st.heap n.leftSnapshot = .ok ls) (hrs : load st.heap n.rightSnapshot = .ok rs)
    (hsearch : searchForKey st key (fuel + 1) = .ok (lastNode, compRes))
    (hne : compRes ≠ 0) :
    (∀ c : Int, invalidSnapshot st.heap lastNode key c =
      .ok (decide ((c < 0 ∧ Compare ls.key key ≤ 0) ∨ (c > 0 ∧ Compare rs.key key ≥ 0)))) ∧
    Get st key (fuel + 1) =
      if n.marked = true ∨
          ((compRes < 0 ∧ Compare ls.key key ≤ 0) ∨ (compRes > 0 ∧ Compare rs.key key ≥ 0))
      then Get st key fuel else .ok (default, false) := by
  have hinv := fun c => invalidSnapshot_eq st.heap lastNode key c n ls rs hn hls hrs
  refine ⟨hinv, ?_⟩
  rw [Get, hsearch]
  simp only [hne, if_false, hn, hinv compRes]
  by_cases hm : n.marked = true
  · simp [hm]
  · by_cases hp : (compRes < 0 ∧ Compare ls.key key ≤ 0) ∨ (compRes > 0 ∧ Compare rs.key key ≥ 0)
    · simp [hm, hp]
    · simp [hm, hp]

theorem validation_predicate_witness :
    load snapshotted.heap (some 1) = .ok
      { plainNode 5 "a" none none with
        parent := some 0, leftSnapshot := some 2, rightSnapshot := some 0 } ∧
    load snapshotted.heap (some 2) = .ok (plainNode 9 "s" none none) ∧
    load snapshotted.heap (some 0) = .ok (plainNode 0 "r" (some 1) none) ∧
    searchForKey snapshotted 7 2 = .ok (some 1, -1) ∧ (-1 : Int) ≠ 0 ∧
    (∀ c : Int, invalidSnapshot snapshotted.heap (some 1) 7 c =
      .ok (decide ((c < 0 ∧ Compare (9 : Int) 7 ≤ 0) ∨ (c > 0 ∧ Compare (0 : Int) 7 ≥ 0)))) ∧
    Get snapshotted 7 2 =
      if false = true ∨
          (((-1 : Int) < 0 ∧ Compare (9 : Int) 7 ≤ 0) ∨ ((-1 : Int) > 0 ∧ Compare (0 : Int) 7 ≥ 0))
      then Get snapshotted 7 1 else .ok (default, false) :=
  ⟨rfl, rfl, rfl, rfl, by decide,
    validation_predicate snapshotted 7 1 (some 1) (-1) _ _ _ rfl rfl rfl rfl (by decide)⟩

theorem set_same {α : Type} (l : List α) (a : Nat) (x : α) (hx : l[a]? = some x) :
    l.set a x = l := by
  apply List.ext_getElem?
  intro i
  by_cases hi : a = i
  · subst hi
    rw [List.getElem?_set_self (List.getElem?_eq_some.1 hx).1, hx]
  · rw [List.getElem?_set_ne hi]

theorem lt_of_getElem? {α : Type} {l : List α} {a : Nat} {x : α} (hx : l[a]? = some x) :
    a < l.length :=
  (List.getElem?_eq_some.1 hx).1

theorem load_set {K V : Type} (h : Heap K V) (a : Nat) (node x : avlNode K V)
    (hn : h[a]? = some node) (p : Ptr) :
    load (h.set a x) p = if p = some a then .ok x else load h p := by
  have hlt := lt_of_getElem? hn
  cases p with
  | none => simp [load]
  | some b =>
    by_cases hb : a = b
    · subst hb
      simp [load, List.getElem?_set_self hlt]
    · have hb' : ¬ b = a := fun e => hb e.symm
      simp [load, List.getElem?_set_ne hb, hb']

theorem invalidSnapshot_set_mtx {K V : Type} [Comparable K] (h : Heap K V) (a : Nat)
    (node : avlNode K V) (hn : h[a]? = some node) (b : Bool) (p : Ptr) (key : K) (c : Int) :
    invalidSnapshot (h.set a { node with mtx := b }) p key c = invalidSnapshot h p key c := by
  have hload := load_set h a node { node with mtx := b } hn
  have hnode : load h (some a) = .ok node := load_some hn
  unfold invalidSnapshot
  simp only [hload]
  by_cases hp : p = some a
  · subst hp
    simp only [if_true, hnode]
    by_cases hl : node.leftSnapshot = some a <;> by_cases hr : node.rightSnapshot = some a <;>
      simp [hl, hr, hnode]
  · simp only [hp, if_false]
    cases hq : load h p with
    | error e => simp
    | ok n =>
      by_cases hl : n.leftSnapshot = some a <;> by_cases hr : n.rightSnapshot = some a <;>
        simp [hl, hr, hnode]

theorem lock_section {K V : Type} [Comparable K] (h : Heap K V) (a : Nat)
    (node : avlNode K V) (hn : h[a]? = some node) (hfree : node.mtx = false) :
    ∃ h1 : Heap K V, lock h (some a) = .ok h1 ∧
      load h1 (some a) = .ok { node with mtx := true } ∧
      (∀ (p : Ptr) (key : K) (c : Int),
        invalidSnapshot h1 p key c = invalidSnapshot h p key c) ∧
      unlock h1 (some a) = .ok h ∧
      ∀ (key : K) (value : V),
        unlock (newNode h1 key value (some a)).2 (some a) =
          .ok (newNode h key value (some a)).2 := by
  have hlt := lt_of_getElem? hn
  have hnode : load h (some a) = .ok node := load_some hn
  have hload1 : load (h.set a { node with mtx := true }) (some a) =
      .ok { node with mtx := true } := by
    rw [load_set h a node _ hn, if_pos rfl]
  have hback : { node with mtx := false } = node := by
    cases node
    simp only [avlNode.mk.injEq, true_and] at *
    exact hfree.symm
  have hlt2 : a < (h.set a { node with mtx := true }).length := by
    rw [List.length_set]
    exact hlt
  refine ⟨h.set a { node with mtx := true }, ?_, hload1,
    fun p key c => invalidSnapshot_set_mtx h a node hn true p key c, ?_, ?_⟩
  · simp [lock, hnode, hfree, store, hlt]
  · simp only [unlock, hload1, store, List.length_set, hlt, if_true, List.set_set]
    rw [hback, set_same h a node hn]
  · intro key value
    have hl : load ((newNode (h.set a { node with mtx := true }) key value (some a)).2)
        (some a) = .ok { node with mtx := true } := by
      simp only [newNode, alloc, load, List.getElem?_append_left hlt2,
        List.getElem?_set_self hlt]
    simp only [unlock, hl, store]
    simp only [newNode, alloc, List.length_append, List.length_set, List.length_singleton]
    rw [if_pos (by omega), List.set_append_left _ _ hlt2, List.set_set, hback,
      set_same h a node hn]

theorem addChild_eval {K V : Type} [Comparable K] (h : Heap K V) (a : Nat)
    (node : avlNode K V) (hn : h[a]? = some node) (hfree : node.mtx = false)
    (key : K) (value : V) (c : Int) :
    addChild h (some a) key value c =
      if node.marked = true ∨ (node.left ≠ none ∧ c < 0) ∨ (node.right ≠ none ∧ c > 0)
      then .ok (true, h)
      else
        match invalidSnapshot h (some a) key c with
        | .error e => .error e
        | .ok true => .ok (true, h)
        | .ok false => .ok (false, (newNode h key value (some a)).2) := by
  obtain ⟨h1, hlock, hload1, hinv1, hunlock, hunlock2⟩ := lock_section h a node hn hfree
  unfold addChild
  simp only [hlock, hload1, hinv1]
  by_cases hm : node.marked = true
  · simp [hm, hunlock]
  · by_cases hl : node.left ≠ none ∧ c < 0
    · simp [hm, hl, hunlock]
    · by_cases hr : node.right ≠ none ∧ c > 0
      · simp [hm, hl, hr, hunlock]
      · simp only [hm, hl, hr, or_self, if_false]
        cases hinv : invalidSnapshot h (some a) key c with
        | error e => simp
        | ok b =>
          cases b
          · simp [hunlock2]
          · simp [hunlock]

/-- C13: for a node `n` whose lock is free and a non-zero `compRes`,
`n.addChild(key, value, compRes)` returns retry = true exactly when `n` is
marked, or the child slot on the side of `compRes` is occupied, or
`invalidSnapshot(n, key, compRes)` is true; and when it returns retry = true
the heap is what it was before the call: every field of `n` (key, value,
marked flag, children, parent, snapshot links) is unchanged and its lock is
released again. -/
theorem addChild_retry_iff {K V : Type} [Comparable K] (h : Heap K V) (a : Nat)
    (node : avlNode K V) (hn : h[a]? = some node) (hfree : node.mtx = false)
    (key : K) (value : V) (c : Int) (_hc : c ≠ 0) :
    ((∃ h', addChild h (some a) key value c = .ok (true, h')) ↔
      (node.marked = true ∨ (c < 0 ∧ node.left ≠ none) ∨ (c > 0 ∧ node.right ≠ none) ∨
        invalidSnapshot h (some a) key c = .ok true)) ∧
    (∀ h', addChild h (some a) key value c = .ok (true, h') →
      h' = h ∧ load h' (some a) = .ok node ∧ node.mtx = false) := by
  have heval := addChild_eval h a node hn hfree key value c
  have hnode : load h (some a) = .ok node := load_some hn
  by_cases hg : node.marked = true ∨ (node.left ≠ none ∧ c < 0) ∨ (node.right ≠ none ∧ c > 0)
  · rw [if_pos hg] at heval
    refine ⟨⟨fun _ => ?_, fun _ => ⟨h, heval⟩⟩, ?_⟩
    · rcases hg with hm | hl | hr
      · exact Or.inl hm
      · exact Or.inr (Or.inl ⟨hl.2, hl.1⟩)
      · exact Or.inr (Or.inr (Or.inl ⟨hr.2, hr.1⟩))
    · intro h' hret
      rw [heval] at hret
      injection hret with e
      injection e with _ e2
      subst e2
      exact ⟨rfl, hnode, hfree⟩
  · rw [if_neg hg] at heval
    have hnm : ¬ node.marked = true := fun hm => hg (Or.inl hm)
    have hnl : ¬ (c < 0 ∧ node.left ≠ none) := fun hl => hg (Or.inr (Or.inl ⟨hl.2, hl.1⟩))
    have hnr : ¬ (c > 0 ∧ node.right ≠ none) := fun hr => hg (Or.inr (Or.inr ⟨hr.2, hr.1⟩))
    cases hinv : invalidSnapshot h (some a) key c with
    | error e =>
      rw [hinv] at heval
      refine ⟨⟨?_, ?_⟩, ?_⟩
      · rintro ⟨h', hret⟩
        rw [heval] at hret
        cases hret
      · rintro (hm | hl | hr | hi)
        · exact absurd hm hnm
        · exact absurd hl hnl
        · exact absurd hr hnr
        · cases hi
      · intro h' hret
        rw [heval] at hret
        cases hret
    | ok b =>
      rw [hinv] at heval
      cases b with
      | true =>
        refine ⟨⟨fun _ => Or.inr (Or.inr (Or.inr rfl)), fun _ => ⟨h, heval⟩⟩, ?_⟩
        intro h' hret
        rw [heval] at hret
        injection hret with e
        injection e with _ e2
        subst e2
        exact ⟨rfl, hnode, hfree⟩
      | false =>
        refine ⟨⟨?_, ?_⟩, ?_⟩
        · rintro ⟨h', hret⟩
          rw [heval] at hret
          injection hret with e
          injection e with e1 _
          cases e1
        · rintro (hm | hl | hr | hi)
          · exact absurd hm hnm
          · exact absurd hl hnl
          · exact absurd hr hnr
          · injection hi with e
            cases e
        · intro h' hret
          rw [heval] at hret
          injection hret with e
          injection e with e1 _
          cases e1

theorem addChild_retry_iff_witness :
    snapshotted.heap[1]? = some
      { plainNode 5 "a" none none with
        parent := some 0, leftSnapshot := some 2, rightSnapshot := some 0 } ∧
    (false = false) ∧ (-1 : Int) ≠ 0 ∧
    ((∃ h', addChild snapshotted.heap (some 1) 9 "z" (-1) = .ok (true, h')) ↔
      (false = true ∨ ((-1 : Int) < 0 ∧ (none : Ptr) ≠ none) ∨
        ((-1 : Int) > 0 ∧ (none : Ptr) ≠ none) ∨
        invalidSnapshot snapshotted.heap (some 1) 9 (-1) = .ok true)) ∧
    (∀ h', addChild snapshotted.heap (some 1) 9 "z" (-1) = .ok (true, h') →
      h' = snapshotted.heap ∧
      load h' (some 1) = .ok
        { plainNode 5 "a" none none with
          parent := some 0, leftSnapshot := some 2, rightSnapshot := some 0 } ∧
      false = false) :=
  ⟨rfl, rfl, by decide,
    addChild_retry_iff snapshotted.heap 1 _ rfl rfl 9 "z" (-1) (by decide)⟩

/-- C14 (the code does not do this): the attach step.  On the tree
`NewConcAvlTree(-100, 100, _)`, the call `root.addChild(5, "a", -2)` returns
retry = false with the lock released, but the root's left slot is still nil:
the new node sits at the fresh address 2 with parent the root, is the child of
no node, and both its snapshot pointers are nil. -/
theorem attach_step_missing :
    ∃ h', addChild scenario0.heap (some 0) 5 "a" (-2) = .ok (false, h') ∧
      (∃ n, load h' (some 0) = .ok n ∧ n.left = none ∧ n.mtx = false) ∧
      (∃ c, load h' (some 2) = .ok c ∧ c.key = 5 ∧ c.value = "a" ∧ c.parent = some 0 ∧
        c.leftSnapshot = none ∧ c.rightSnapshot = none) ∧
      h'.length = 3 ∧
      ∀ n ∈ h', n.left ≠ some 2 ∧ n.right ≠ some 2 :=
  ⟨_, rfl, ⟨_, rfl, rfl, rfl⟩, ⟨_, rfl, rfl, rfl, rfl, rfl, rfl⟩, rfl, by decide⟩

theorem searchLoop_set_value {K V : Type} [Comparable K] (h : Heap K V) (a : Nat)
    (n : avlNode K V) (hn : h[a]? = some n) (v : V) (key : K) :
    ∀ (fuel : Nat) (p : Ptr) (c : Int),
      searchLoop (h.set a { n with value := v }) key fuel p c = searchLoop h key fuel p c := by
  have hload := load_set h a n { n with value := v } hn
  have hnode : load h (some a) = .ok n := load_some hn
  intro fuel
  induction fuel with
  | zero =>
    intro p c
    unfold searchLoop
    rfl
  | succ f ih =>
    intro p c
    conv_lhs => unfold searchLoop
    conv_rhs => unfold searchLoop
    by_cases hc : c = 0
    · simp [hc]
    · simp only [hc, if_false, hload]
      have hchild : ∀ node : avlNode K V,
          (match (if c < 0 then node.left else node.right) with
            | none => (Except.ok (p, c) : Except Fault (Ptr × Int))
            | some ch =>
              match (if (some ch : Ptr) = some a then Except.ok { n with value := v }
                      else load h (some ch)) with
              | .error e => .error e
              | .ok cn => searchLoop (h.set a { n with value := v }) key f (some ch)
                  (Compare cn.key key)) =
          (match (if c < 0 then node.left else node.right) with
            | none => (Except.ok (p, c) : Except Fault (Ptr × Int))
            | some ch =>
              match load h (some ch) with
              | .error e => .error e
              | .ok cn => searchLoop h key f (some ch) (Compare cn.key key)) := by
        intro node
        cases (if c < 0 then node.left else node.right) with
        | none => rfl
        | some ch =>
          dsimp only
          by_cases hch : ch = a
          · subst hch
            simp [hnode, ih]
          · simp [hch, ih]
      by_cases hp : p = some a
      · subst hp
        simp only [if_true, hnode]
        exact hchild n
      · simp only [hp, if_false]
        cases load h p with
        | error e => rfl
        | ok node => exact hchild node

theorem searchLoop_match {K V : Type} [Comparable K] (h : Heap K V) (key : K) :
    ∀ (fuel : Nat) (p : Ptr) (c : Int) (q : Ptr),
      searchLoop h key fuel p c = .ok (q, 0) → c ≠ 0 →
      ∃ b n, q = some b ∧ h[b]? = some n ∧ Compare n.key key = 0 := by
  intro fuel
  induction fuel with
  | zero =>
    intro p c q hrun hc
    unfold searchLoop at hrun
    simp [hc] at hrun
  | succ f ih =>
    intro p c q hrun hc
    unfold searchLoop at hrun
    simp only [hc, if_false] at hrun
    cases hl : load h p with
    | error e => simp [hl] at hrun
    | ok node =>
      simp only [hl] at hrun
      cases hch : (if c < 0 then node.left else node.right) with
      | none =>
        simp only [hch] at hrun
        injection hrun with e
        injection e with _ e2
        exact absurd e2 hc
      | some ch =>
        simp only [hch] at hrun
        cases hcl : load h (some ch) with
        | error e => simp [hcl] at hrun
        | ok cn =>
          simp only [hcl] at hrun
          by_cases hz : Compare cn.key key = 0
          · rw [hz, searchLoop_zero] at hrun
            injection hrun with e
            injection e with e1 _
            have hget : h[ch]? = some cn := by
              cases hg : h[ch]? with
              | none => simp [load, hg] at hcl
              | some x =>
                simp only [load, hg] at hcl
                injection hcl with e3
                rw [e3]
            exact ⟨ch, cn, e1.symm, hget, hz⟩
          · exact ih (some ch) _ q hrun hz

/-- C15: whenever `searchForKey` returns `compRes = 0` at node `m`,
`Insert(key, value)` returns true and the heap it leaves differs from the old
one in the `value` field of `m` alone: no node is added or removed, every
other node is the same record, and `m` keeps its key, flag and links; a
following `Get(key)` returns `(value, true)`. -/
theorem insert_updates_in_place {K V : Type} [Comparable K] [Inhabited V]
    (st : TreeState K V) (key : K) (value : V) (fuel : Nat) (m : Ptr)
    (hsearch : searchForKey st key (fuel + 1) = .ok (m, 0)) :
    ∃ a n, m = some a ∧ st.heap[a]? = some n ∧
      Insert st key value (fuel + 1) =
        .ok (true, { st with heap := st.heap.set a { n with value := value } }) ∧
      (st.heap.set a { n with value := value }).length = st.heap.length ∧
      (∀ b, b ≠ a → (st.heap.set a { n with value := value })[b]? = st.heap[b]?) ∧
      Get { st with heap := st.heap.set a { n with value := value } } key (fuel + 1) =
        .ok (value, true) := by
  obtain ⟨a, n, hm, hn, _⟩ :=
    searchLoop_match st.heap key (fuel + 1) st.t.root (-2) m hsearch (by decide)
  subst hm
  have hlt := lt_of_getElem? hn
  refine ⟨a, n, rfl, hn, ?_, List.length_set _ _ _, ?_, ?_⟩
  · rw [Insert, hsearch]
    simp [load_some hn, store, hlt]
  · intro b hb
    exact List.getElem?_set_ne (fun e => hb e.symm)
  · have hsearch2 : searchForKey { st with heap := st.heap.set a { n with value := value } }
        key (fuel + 1) = .ok (some a, 0) := by
      rw [searchForKey]
      simp only []
      rw [searchLoop_set_value st.heap a n hn value key]
      exact hsearch
    rw [Get, hsearch2]
    simp [load_set st.heap a n _ hn]

theorem insert_updates_in_place_witness :
    searchForKey mirrored 3 2 = .ok (some 3, 0) ∧
    ∃ a n, (some 3 : Ptr) = some a ∧ mirrored.heap[a]? = some n ∧
      Insert mirrored 3 "new" 2 =
        .ok (true, { mirrored with heap := mirrored.heap.set a { n with value := "new" } }) ∧
      (mirrored.heap.set a { n with value := "new" }).length = mirrored.heap.length ∧
      (∀ b, b ≠ a → (mirrored.heap.set a { n with value := "new" })[b]? = mirrored.heap[b]?) ∧
      Get { mirrored with heap := mirrored.heap.set a { n with value := "new" } } 3 2 =
        .ok ("new", true) :=
  ⟨rfl, insert_updates_in_place mirrored 3 "new" 1 (some 3) rfl⟩

/-! ## The traced lookup does what the lookup does, reading only -/

theorem onlyReads_refl {K V : Type} (w : Traced K V) : OnlyReads w w :=
  ⟨rfl, [], by simp, by simp⟩

theorem onlyReads_trans {K V : Type} {w1 w2 w3 : Traced K V} (h12 : OnlyReads w1 w2)
    (h23 : OnlyReads w2 w3) : OnlyReads w1 w3 := by
  obtain ⟨hs12, e12, hl12, hr12⟩ := h12
  obtain ⟨hs23, e23, hl23, hr23⟩ := h23
  refine ⟨hs23.trans hs12, e12 ++ e23, ?_, ?_⟩
  · rw [hl23, hl12, List.append_assoc]
  · intro e he
    rcases List.mem_append.1 he with he | he
    · exact hr12 e he
    · exact hr23 e he

theorem readNode_mirrors {K V : Type} (w : Traced K V) (p : Ptr) :
    Mirrors w (load w.st.heap p) (readNode w p) := by
  cases p with
  | none => simp [Mirrors, load, readNode]
  | some a =>
    cases hn : w.st.heap[a]? with
    | none => simp [Mirrors, load, readNode, hn]
    | some n =>
      simp only [Mirrors, load, readNode, hn]
      exact ⟨_, rfl, rfl, [Access.read a], rfl, by simp⟩

theorem mirrors_of_onlyReads {K V α : Type} {w0 w1 : Traced K V} (h01 : OnlyReads w0 w1)
    {plain : Except Fault α} {traced : Except Fault (α × Traced K V)}
    (hm : Mirrors w1 plain traced) : Mirrors w0 plain traced := by
  cases plain with
  | error e => exact hm
  | ok r =>
    obtain ⟨w', hw', hr⟩ := hm
    exact ⟨w', hw', onlyReads_trans h01 hr⟩

theorem searchLoopT_mirrors {K V : Type} [Comparable K] (key : K) :
    ∀ (fuel : Nat) (w : Traced K V) (p : Ptr) (c : Int),
      Mirrors w (searchLoop w.st.heap key fuel p c) (searchLoopT key fuel w p c) := by
  intro fuel
  induction fuel with
  | zero =>
    intro w p c
    unfold searchLoop searchLoopT
    by_cases hc : c = 0
    · simp only [hc, if_true, Mirrors]
      exact ⟨w, rfl, onlyReads_refl w⟩
    · simp only [hc, if_false, Mirrors]
  | succ f ih =>
    intro w p c
    conv => unfold searchLoop searchLoopT
    by_cases hc : c = 0
    · simp only [hc, if_true, Mirrors]
      exact ⟨w, rfl, onlyReads_refl w⟩
    · simp only [hc, if_false]
      have hread := readNode_mirrors w p
      cases hl : load w.st.heap p with
      | error e =>
        rw [hl] at hread
        simp only [Mirrors] at hread
        simp only [hread, Mirrors]
      | ok n =>
        rw [hl] at hread
        obtain ⟨w1, hw1, hr1⟩ := hread
        simp only [hw1]
        cases hch : (if c < 0 then n.left else n.right) with
        | none =>
          simp only [Mirrors]
          exact ⟨w1, rfl, hr1⟩
        | some ch =>
          simp only []
          have hread2 := readNode_mirrors w1 (some ch)
          rw [hr1.1] at hread2
          cases hcl : load w.st.heap (some ch) with
          | error e =>
            rw [hcl] at hread2
            simp only [Mirrors] at hread2
            simp only [hread2, Mirrors]
          | ok cn =>
            rw [hcl] at hread2
            obtain ⟨w2, hw2, hr2⟩ := hread2
            simp only [hw2]
            have hrec := ih w2 (some ch) (Compare cn.key key)
            rw [hr2.1, hr1.1] at hrec
            exact mirrors_of_onlyReads (onlyReads_trans hr1 hr2) hrec

theorem invalidSnapshotT_mirrors {K V : Type} [Comparable K] (w : Traced K V) (p : Ptr)
    (key : K) (c : Int) :
    Mirrors w (invalidSnapshot w.st.heap p key c) (invalidSnapshotT w p key c) := by
  have side : ∀ (pick : avlNode K V → Ptr) (test : avlNode K V → Bool),
      Mirrors w
        (match load w.st.heap p with
          | .error e => .error e
          | .ok n =>
            match load w.st.heap (pick n) with
            | .error e => .error e
            | .ok s => .ok (test s))
        (match readNode w p with
          | .error e => .error e
          | .ok (n, w1) =>
            match readNode w1 (pick n) with
            | .error e => .error e
            | .ok (s, w2) => .ok (test s, w2)) := by
    intro pick test
    have hread := readNode_mirrors w p
    cases hl : load w.st.heap p with
    | error e =>
      rw [hl] at hread
      simp only [Mirrors] at hread
      simp only [hread, Mirrors]
    | ok n =>
      rw [hl] at hread
      obtain ⟨w1, hw1, hr1⟩ := hread
      simp only [hw1]
      have hread2 := readNode_mirrors w1 (pick n)
      rw [hr1.1] at hread2
      cases hsl : load w.st.heap (pick n) with
      | error e =>
        rw [hsl] at hread2
        simp only [Mirrors] at hread2
        simp only [hread2, Mirrors]
      | ok s =>
        rw [hsl] at hread2
        obtain ⟨w2, hw2, hr2⟩ := hread2
        simp only [hw2, Mirrors]
        exact ⟨w2, rfl, onlyReads_trans hr1 hr2⟩
  unfold invalidSnapshot invalidSnapshotT
  by_cases h1 : c < 0
  · simp only [h1, if_true]
    exact side (fun n => n.leftSnapshot) (fun s => decide (Compare s.key key ≤ 0))
  · by_cases h2 : c > 0
    · simp only [h1, h2, if_true, if_false]
      exact side (fun n => n.rightSnapshot) (fun s => decide (Compare s.key key ≥ 0))
    · simp only [h1, h2, if_false, Mirrors]
      exact ⟨w, rfl, onlyReads_refl w⟩

theorem GetT_mirrors {K V : Type} [Comparable K] [Inhabited V] (key : K) :
    ∀ (fuel : Nat) (w : Traced K V), Mirrors w (Get w.st key fuel) (GetT key fuel w) := by
  intro fuel
  induction fuel with
  | zero =>
    intro w
    simp only [Get, GetT, Mirrors]
  | succ f ih =>
    intro w
    rw [Get, GetT]
    have hsearch := searchLoopT_mirrors key (f + 1) w w.st.t.root (-2)
    rw [searchForKey, searchForKeyT]
    cases hs : searchLoop w.st.heap key (f + 1) w.st.t.root (-2) with
    | error e =>
      rw [hs] at hsearch
      simp only [Mirrors] at hsearch
      simp only [hsearch, Mirrors]
    | ok r =>
      rw [hs] at hsearch
      obtain ⟨w1, hw1, hr1⟩ := hsearch
      obtain ⟨lastNode, compRes⟩ := r
      simp only [hw1]
      have hread := readNode_mirrors w1 lastNode
      rw [hr1.1] at hread
      cases hl : load w.st.heap lastNode with
      | error e =>
        rw [hl] at hread
        simp only [Mirrors] at hread
        by_cases hc : compRes = 0 <;> simp only [hc, if_true, if_false, hread, Mirrors]
      | ok n =>
        rw [hl] at hread
        obtain ⟨w2, hw2, hr2⟩ := hread
        have hr02 := onlyReads_trans hr1 hr2
        by_cases hc : compRes = 0
        · simp only [hc, if_true, hw2, Mirrors]
          exact ⟨w2, rfl, hr02⟩
        · simp only [hc, if_false, hw2]
          cases hm : n.marked with
          | true =>
            simp only [↓reduceIte]
            have hrec := ih w2
            rw [hr02.1] at hrec
            exact mirrors_of_onlyReads hr02 hrec
          | false =>
            simp only [Bool.false_eq_true, ↓reduceIte]
            have hinv := invalidSnapshotT_mirrors w2 lastNode key compRes
            rw [hr02.1] at hinv
            cases hi : invalidSnapshot w.st.heap lastNode key compRes with
            | error e =>
              rw [hi] at hinv
              simp only [Mirrors] at hinv
              simp only [hinv, Mirrors]
            | ok b =>
              rw [hi] at hinv
              obtain ⟨w3, hw3, hr3⟩ := hinv
              have hr03 := onlyReads_trans hr02 hr3
              cases b with
              | true =>
                simp only [hw3]
                have hrec := ih w3
                rw [hr03.1] at hrec
                exact mirrors_of_onlyReads hr03 hrec
              | false =>
                simp only [hw3, Mirrors]
                exact ⟨w3, rfl, hr03⟩

theorem ContainsT_mirrors {K V : Type} [Comparable K] [Inhabited V] (key : K) (fuel : Nat)
    (w : Traced K V) : Mirrors w (Contains w.st key fuel) (ContainsT key fuel w) := by
  have hget := GetT_mirrors key fuel w
  rw [Contains, ContainsT]
  cases hg : Get w.st key fuel with
  | error e =>
    rw [hg] at hget
    simp only [Mirrors] at hget
    simp only [hget, Mirrors]
  | ok r =>
    rw [hg] at hget
    obtain ⟨w1, hw1, hr1⟩ := hget
    obtain ⟨v, found⟩ := r
    simp only [hw1, Mirrors]
    exact ⟨w1, rfl, hr1⟩

theorem state_of_mirrors {K V α : Type} {w : Traced K V} {plain : Except Fault α}
    {traced : Except Fault (α × Traced K V)} (hm : Mirrors w plain traced)
    {r : α} {w' : Traced K V} (hret : traced = .ok (r, w')) :
    plain = .ok r ∧ OnlyReads w w' := by
  cases plain with
  | error e =>
    simp only [Mirrors] at hm
    rw [hm] at hret
    cases hret
  | ok r0 =>
    obtain ⟨w0, hw0, hr0⟩ := hm
    rw [hw0] at hret
    injection hret with e
    injection e with e1 e2
    subst e1 e2
    exact ⟨rfl, hr0⟩

theorem run_shape {K V : Type} [Comparable K] [Inhabited V] {min max : K}
    {st : TreeState K V} (hrun : Run min max st) : SentinelShape min max st := by
  induction hrun with
  | new f => exact new_shape min max f
  | insert key value fuel existed st' _ hins ih =>
    exact (insert_keeps_shape key value fuel _ existed st' ih hins).1
  | get key fuel r w' _ hret ih =>
    have hro := (state_of_mirrors (GetT_mirrors key fuel _) hret).2
    rw [hro.1]
    exact ih
  | contains key fuel b w' _ hret ih =>
    have hro := (state_of_mirrors (ContainsT_mirrors key fuel _) hret).2
    rw [hro.1]
    exact ih

/-- C16: in every state reached from `NewConcAvlTree(min, max, _)` by calls of
`Insert`, `Get` and `Contains`, the root is the min-sentinel, both sentinels
still carry their keys with marked = false, and the max-sentinel is reached
from the root through a child link. -/
theorem sentinel_invariant {K V : Type} [Comparable K] [Inhabited V] {min max : K}
    {st : TreeState K V} (hrun : Run min max st) :
    ∃ (lo hi : avlNode K V) (q : Nat),
      st.t.root = st.t.leftSentinel ∧
      load st.heap st.t.leftSentinel = .ok lo ∧ lo.key = min ∧ lo.marked = false ∧
      st.t.rightSentinel = some q ∧
      load st.heap (some q) = .ok hi ∧ hi.key = max ∧ hi.marked = false ∧
      ReachableDown st.heap st.t.root q := by
  obtain ⟨rest, rfl⟩ := run_shape hrun
  refine ⟨minSentinel min, maxSentinel max, 1, rfl, rfl, rfl, rfl, rfl, ?_, rfl, rfl,
    0, rfl, ?_⟩
  · simp [load]
  · exact Relation.ReflTransGen.single ⟨minSentinel min, rfl, Or.inr rfl⟩

theorem sentinel_invariant_witness :
    Run (-100) 100 scenario1 ∧
    ∃ (lo hi : avlNode Int String) (q : Nat),
      scenario1.t.root = scenario1.t.leftSentinel ∧
      load scenario1.heap scenario1.t.leftSentinel = .ok lo ∧ lo.key = -100 ∧
      lo.marked = false ∧
      scenario1.t.rightSentinel = some q ∧
      load scenario1.heap (some q) = .ok hi ∧ hi.key = 100 ∧ hi.marked = false ∧
      ReachableDown scenario1.heap scenario1.t.root q :=
  have hrun : Run (-100) 100 scenario1 :=
    Run.get 3 1 ("", false)
      { st := scenario1,
        log := [Access.read 0, Access.read 0, Access.read 0, Access.read 1] }
      (Run.insert 5 "a" 1 false scenario1 (Run.new Compare) (by rfl)) (by rfl)
  ⟨hrun, sentinel_invariant hrun⟩

/-- C17: whenever `Get` returns, the lookup with its memory events recorded
returns the same result, leaves the tree state (the tree value and every node
of the heap) equal to the state before the call, and has recorded only reads:
no lock is acquired and no field is written.  The same holds for `Contains`. -/
theorem lookup_is_read_only {K V : Type} [Comparable K] [Inhabited V] (st : TreeState K V)
    (key : K) (fuel : Nat) (r : V × Bool) (hget : Get st key fuel = .ok r) :
    (∃ w', GetT key fuel { st := st, log := [] } = .ok (r, w') ∧ w'.st = st ∧
      ∀ e ∈ w'.log, ∃ a, e = Access.read a) ∧
    (∃ w', ContainsT key fuel { st := st, log := [] } = .ok (r.2, w') ∧ w'.st = st ∧
      ∀ e ∈ w'.log, ∃ a, e = Access.read a) := by
  have hg := GetT_mirrors key fuel ({ st := st, log := [] } : Traced K V)
  have hc := ContainsT_mirrors key fuel ({ st := st, log := [] } : Traced K V)
  have hcont : Contains st key fuel = .ok r.2 := by
    rw [Contains, hget]
  simp only [hget, hcont, Mirrors] at hg hc
  obtain ⟨w1, hw1, hs1, extra1, hl1, hr1⟩ := hg
  obtain ⟨w2, hw2, hs2, extra2, hl2, hr2⟩ := hc
  refine ⟨⟨w1, hw1, hs1, ?_⟩, ⟨w2, hw2, hs2, ?_⟩⟩
  · intro e he
    rw [hl1] at he
    exact hr1 e (by simpa using he)
  · intro e he
    rw [hl2] at he
    exact hr2 e (by simpa using he)

theorem lookup_is_read_only_witness :
    Get scenario2 3 1 = .ok ("", false) ∧
    (∃ w', GetT 3 1 { st := scenario2, log := [] } = .ok (("", false), w') ∧
      w'.st = scenario2 ∧ ∀ e ∈ w'.log, ∃ a, e = Access.read a) ∧
    (∃ w', ContainsT 3 1 { st := scenario2, log := [] } = .ok (false, w') ∧
      w'.st = scenario2 ∧ ∀ e ∈ w'.log, ∃ a, e = Access.read a) :=
  ⟨rfl, lookup_is_read_only scenario2 3 1 ("", false) rfl⟩

/-! ## Insert without a match: the reachable part stays as it was -/

theorem addChild_attach_result {K V : Type} [Comparable K] (h : Heap K V) (p : Ptr) (key : K)
    (value : V) (c : Int) (h1 : Heap K V) (hadd : addChild h p key value c = .ok (false, h1)) :
    ∃ a, p = some a ∧ h1 = (newNode h key value (some a)).2 := by
  cases p with
  | none => simp [addChild, lock, load] at hadd
  | some a =>
    cases hn : h[a]? with
    | none => simp [addChild, lock, load, hn] at hadd
    | some node =>
      cases hfree : node.mtx with
      | true => simp [addChild, lock, load, hn, hfree] at hadd
      | false =>
        rw [addChild_eval h a node hn hfree] at hadd
        refine ⟨a, rfl, ?_⟩
        split_ifs at hadd with hg
        · injection hadd with e
          injection e with e1 _
          cases e1
        · cases hinv : invalidSnapshot h (some a) key c with
          | error e =>
            rw [hinv] at hadd
            cases hadd
          | ok b =>
            rw [hinv] at hadd
            cases b with
            | true =>
              injection hadd with e
              injection e with e1 _
              cases e1
            | false =>
              injection hadd with e
              injection e with _ e2
              exact e2.symm

theorem inHeap_lt {K V : Type} {h : Heap K V} {q : Nat} (hq : inHeap h (some q) = true) :
    q < h.length := by
  simpa [inHeap] using hq

theorem pointsTo_lt {K V : Type} {st : TreeState K V} (hwf : NoDangling st = true)
    {p q : Nat} (hpq : PointsTo st.heap p q) : q < st.heap.length := by
  obtain ⟨n, hn, hfield⟩ := hpq
  simp only [NoDangling, Bool.and_eq_true, List.all_eq_true] at hwf
  obtain ⟨⟨⟨⟨hpar, hl⟩, hr⟩, hls⟩, hrs⟩ := hwf.2 n (List.getElem?_mem hn)
  rcases hfield with e | e | e | e | e
  · rw [e] at hl
    exact inHeap_lt hl
  · rw [e] at hr
    exact inHeap_lt hr
  · rw [e] at hpar
    exact inHeap_lt hpar
  · rw [e] at hls
    exact inHeap_lt hls
  · rw [e] at hrs
    exact inHeap_lt hrs

theorem reach_lt {K V : Type} {st : TreeState K V} (hwf : NoDangling st = true)
    {a q : Nat} (ha : a < st.heap.length)
    (hreach : Relation.ReflTransGen (PointsTo st.heap) a q) : q < st.heap.length := by
  induction hreach with
  | refl => exact ha
  | tail _ hstep _ => exact pointsTo_lt hwf hstep

theorem reach_append {K V : Type} {st : TreeState K V} (hwf : NoDangling st = true)
    (x : avlNode K V) {a q : Nat} (ha : a < st.heap.length) :
    Relation.ReflTransGen (PointsTo (st.heap ++ [x])) a q ↔
      Relation.ReflTransGen (PointsTo st.heap) a q := by
  constructor
  · intro hreach
    induction hreach with
    | refl => exact Relation.ReflTransGen.refl
    | tail _ hstep ih =>
      have hb := reach_lt hwf ha ih
      obtain ⟨n, hn, hfield⟩ := hstep
      rw [List.getElem?_append_left hb] at hn
      exact Relation.ReflTransGen.tail ih ⟨n, hn, hfield⟩
  · intro hreach
    induction hreach with
    | refl => exact Relation.ReflTransGen.refl
    | tail hprev hstep ih =>
      have hb := reach_lt hwf ha hprev
      obtain ⟨n, hn, hfield⟩ := hstep
      refine Relation.ReflTransGen.tail ih ⟨n, ?_, hfield⟩
      rw [List.getElem?_append_left hb]
      exact hn

/-- C18: when `searchForKey` returns a non-zero `compRes` and `addChild` does
not signal retry, `Insert(key, value)` returns false, and in the heap it leaves
the nodes reachable from the root are the same addresses as before, each
holding the same record (key, value, marked flag, child, parent and snapshot
links) as before the call. -/
theorem insert_leaves_reachable_part {K V : Type} [Comparable K] (st : TreeState K V)
    (key : K) (value : V) (fuel : Nat) (node : Ptr) (c : Int) (h1 : Heap K V)
    (hwf : NoDangling st = true)
    (hsearch : searchForKey st key (fuel + 1) = .ok (node, c)) (hne : c ≠ 0)
    (hadd : addChild st.heap node key value c = .ok (false, h1)) :
    Insert st key value (fuel + 1) = .ok (false, { st with heap := h1 }) ∧
    (∀ q, Reachable h1 st.t.root q ↔ Reachable st.heap st.t.root q) ∧
    (∀ q, Reachable st.heap st.t.root q → h1[q]? = st.heap[q]?) := by
  obtain ⟨a, _, hh1⟩ := addChild_attach_result st.heap node key value c h1 hadd
  have happ : h1 = st.heap ++
      [avlNode.mk key value 0 false (some a) none none none none false] := by
    rw [hh1]
    rfl
  have hroot : ∀ r, st.t.root = some r → r < st.heap.length := by
    intro r hr
    have hwf' := hwf
    simp only [NoDangling, Bool.and_eq_true] at hwf'
    have := hwf'.1
    rw [hr] at this
    exact inHeap_lt this
  refine ⟨?_, ?_, ?_⟩
  · rw [Insert, hsearch]
    simp [hne, hadd]
  · intro q
    constructor
    · rintro ⟨r, hr, hreach⟩
      rw [happ] at hreach
      exact ⟨r, hr, (reach_append hwf _ (hroot r hr)).1 hreach⟩
    · rintro ⟨r, hr, hreach⟩
      rw [happ]
      exact ⟨r, hr, (reach_append hwf _ (hroot r hr)).2 hreach⟩
  · rintro q ⟨r, hr, hreach⟩
    rw [happ]
    exact List.getElem?_append_left (reach_lt hwf (hroot r hr) hreach)

theorem insert_leaves_reachable_part_witness :
    NoDangling scenario1 = true ∧
    searchForKey scenario1 3 1 = .ok (some 0, -2) ∧ (-2 : Int) ≠ 0 ∧
    addChild scenario1.heap (some 0) 3 "b" (-2) = .ok (false, scenario2.heap) ∧
    Insert scenario1 3 "b" 1 = .ok (false, { scenario1 with heap := scenario2.heap }) ∧
    (∀ q, Reachable scenario2.heap scenario1.t.root q ↔
      Reachable scenario1.heap scenario1.t.root q) ∧
    (∀ q, Reachable scenario1.heap scenario1.t.root q →
      scenario2.heap[q]? = scenario1.heap[q]?) :=
  ⟨by decide, rfl, by decide, rfl,
    insert_leaves_reachable_part scenario1 3 "b" 0 (some 0) (-2) scenario2.heap
      (by decide) rfl (by decide) rfl⟩

theorem get_outcome {K V : Type} [Comparable K] [Inhabited V] {min max : K}
    {st : TreeState K V} (hs : SentinelShape min max st) (key : K) :
    ∀ fuel : Nat, Get st key fuel = .ok (default, false) ∨ Get st key fuel = .error .outOfFuel := by
  intro fuel
  induction fuel with
  | zero => exact Or.inr rfl
  | succ n ih =>
    rw [get_shape hs]
    split_ifs
    · exact ih
    · exact Or.inl rfl

theorem insert_outcome {K V : Type} [Comparable K] [Inhabited V] {min max : K}
    {st : TreeState K V} (hs : SentinelShape min max st) (key : K) (value : V) :
    ∀ fuel : Nat, (∃ st', Insert st key value fuel = .ok (false, st')) ∨
      Insert st key value fuel = .error .outOfFuel := by
  intro fuel
  induction fuel with
  | zero => exact Or.inr rfl
  | succ n ih =>
    rw [insert_shape hs]
    split_ifs
    · exact ih
    · exact Or.inl ⟨_, rfl⟩

/-- C19: on a tree built by `NewConcAvlTree` and any `Insert` calls, for every
key (inside the sentinel bounds or not), the traversal ends at the root with
`compRes = -2`, so the one snapshot pointer `invalidSnapshot` reads, in `Get`
and in `addChild` alike, is the root's `leftSnapshot`, which is non-nil (the
max-sentinel); `invalidSnapshot` and `addChild` return, and `Get`, `Contains`
and `Insert` never end in a nil dereference, whatever the fuel. -/
theorem no_nil_snapshot_read {K V : Type} [Comparable K] [Inhabited V] {min max : K}
    {keys : List K} {st : TreeState K V} (hb : Built min max keys st)
    (key : K) (value : V) (fuel : Nat) :
    searchForKey st key (fuel + 1) = .ok (st.t.root, -2) ∧
    (∃ n s, load st.heap st.t.root = .ok n ∧ n.leftSnapshot ≠ none ∧
      load st.heap n.leftSnapshot = .ok s ∧
      invalidSnapshot st.heap st.t.root key (-2) = .ok (decide (Compare s.key key ≤ 0))) ∧
    (∃ r, addChild st.heap st.t.root key value (-2) = .ok r) ∧
    Get st key fuel ≠ .error .nilDeref ∧ Contains st key fuel ≠ .error .nilDeref ∧
    Insert st key value fuel ≠ .error .nilDeref := by
  have hs := built_shape hb
  have hsearch := search_shape hs key fuel
  have hget := get_outcome hs key fuel
  have hins := insert_outcome hs key value fuel
  obtain ⟨rest, rfl⟩ := hs
  have hinv : invalidSnapshot (minSentinel min :: maxSentinel max :: rest) (some 0) key (-2) =
      .ok (decide (Compare max key ≤ 0)) := by
    simp [invalidSnapshot, load, minSentinel, maxSentinel]
  refine ⟨hsearch, ⟨minSentinel min, maxSentinel max, rfl, ?_, ?_, hinv⟩, ?_, ?_, ?_, ?_⟩
  · simp [minSentinel]
  · simp [load, minSentinel]
  · have heval := addChild_eval (minSentinel min :: maxSentinel max :: rest : Heap K V) 0
      (minSentinel min) rfl rfl key value (-2)
    simp only [hinv] at heval
    rw [heval]
    split_ifs
    · exact ⟨_, rfl⟩
    · cases decide (Compare max key ≤ 0) <;> exact ⟨_, rfl⟩
  · rcases hget with h | h <;> rw [h] <;> simp
  · rw [Contains]
    rcases hget with h | h <;> rw [h] <;> simp
  · rcases hins with ⟨st', h⟩ | h <;> rw [h] <;> simp

theorem no_nil_snapshot_read_witness :
    Built (-100) 100 [3, 5] scenario2 ∧
    searchForKey scenario2 500 4 = .ok (scenario2.t.root, -2) ∧
    (∃ n s, load scenario2.heap scenario2.t.root = .ok n ∧ n.leftSnapshot ≠ none ∧
      load scenario2.heap n.leftSnapshot = .ok s ∧
      invalidSnapshot scenario2.heap scenario2.t.root 500 (-2) =
        .ok (decide (Compare s.key 500 ≤ 0))) ∧
    (∃ r, addChild scenario2.heap scenario2.t.root 500 "x" (-2) = .ok r) ∧
    Get scenario2 500 3 ≠ .error .nilDeref ∧ Contains scenario2 500 3 ≠ .error .nilDeref ∧
    Insert scenario2 500 "x" 3 ≠ .error .nilDeref :=
  ⟨scenario2_built, no_nil_snapshot_read scenario2_built 500 "x" 3⟩

/-- C20: the comparison function passed to `NewConcAvlTree` has no influence:
for any two functions the two trees are equal, `Get`, `Contains` and `Insert`
return the same on both, and so does every sequence of such calls run on
them. -/
theorem compareFn_has_no_influence {K V : Type} [Comparable K] [Inhabited V] (min max : K)
    (f g : K → K → Int) :
    (NewConcAvlTree min max f : TreeState K V) = NewConcAvlTree min max g ∧
    (∀ (key : K) (value : V) (fuel : Nat),
      Get (NewConcAvlTree min max f : TreeState K V) key fuel =
        Get (NewConcAvlTree min max g) key fuel ∧
      Contains (NewConcAvlTree min max f : TreeState K V) key fuel =
        Contains (NewConcAvlTree min max g : TreeState K V) key fuel ∧
      Insert (NewConcAvlTree min max f : TreeState K V) key value fuel =
        Insert (NewConcAvlTree min max g) key value fuel) ∧
    ∀ (fuel : Nat) (ops : List (Op K V)),
      runOps fuel (NewConcAvlTree min max f : TreeState K V) ops =
        runOps fuel (NewConcAvlTree min max g) ops := by
  have heq : (NewConcAvlTree min max f : TreeState K V) = NewConcAvlTree min max g := rfl
  refine ⟨heq, fun key value fuel => ⟨?_, ?_, ?_⟩, fun fuel ops => ?_⟩ <;> rw [heq]

end ConcBst
